import Mathlib

/-!
# MedicineMCQ: question index, pool resolvers and samplers

A shallow embedding of `server.js` (and of the code it shares with
`netlify/functions/api.js` and `public/js/utils.js`).

Modelling conventions.

* JavaScript arrays are lists.  `arr.slice(s, e)` with `0 ≤ s ≤ e` is
  `(arr.drop s).take (e - s)`.
* Integers that reach the engine (`page`, `pageSize`, `count`) are natural
  numbers: the value `parseInt` gave for the query parameter.  `NaN` is outside
  the model.
* `Math.random()` is an explicit stream of reals in `[0, 1)`, each given as a
  fraction, threaded through every function that draws from it.
* A question is a value of an abstract type `Q`; equality on `Q` stands for the
  identity that `Array.prototype.includes` tests.
* The index `db` is the list of its entries in `Object.entries` order.
* The directory under `baseDir` is a tree of named directories and files; a file
  carries the outcome of `JSON.parse` on its text.
* `localeCompare` is a method of the runtime: the functions that call it take it
  as a parameter.  `Array.prototype.sort` is the stable insertion sort.
* The doubles that `Number` gives for a run of digits are whole numbers: each is
  given by its value, and `2^1024` stands for `Infinity`.
-/

set_option exponentiation.threshold 1024

namespace MedicineMCQ

/-! ## The random source -/

/-- One result of `Math.random()`: the real `num / den` of `[0, 1)`. -/
structure Rand where
  num : Nat
  den : Nat
  lt : num < den

/-- The index `Math.floor(u * n)` for a result `u` of `Math.random()`. -/
def Rand.floorMul (u : Rand) (n : Nat) : Nat := u.num * n / u.den

/-- The successive results of `Math.random()`, the next call first. -/
abbrev Rng := Nat → Rand

/-- The random source after `k` calls have been made. -/
def Rng.drop (rng : Rng) (k : Nat) : Rng := fun n => rng (n + k)

/-! ## shuffle -/

/-- The destructuring swap `[a[i], a[j]] = [a[j], a[i]]`: both right-hand values
are read first, then `a[i]` and `a[j]` are assigned in this order. -/
def swap {α : Type} (a : List α) (i j : Nat) : List α :=
  match a[i]?, a[j]? with
  | some x, some y => (a.set i y).set j x
  | _, _ => a

/-- The loop `for (let i = ...; i > 0; i--) { [a[i], a[j]] = [a[j], a[i]] }` of
`shuffle`, started at index `i`, where `j k` is the value of `j` drawn in the
iteration whose index is `k`. -/
def shuffleLoop {α : Type} (j : Nat → Nat) : Nat → List α → List α
  | 0, a => a
  | i + 1, a => shuffleLoop j i (swap a (i + 1) (j (i + 1)))

/-- The function `shuffle` run on the draws `j`: the copy `arr.slice()` is
passed through the loop from `i = a.length - 1`. -/
def shuffleWith {α : Type} (j : Nat → Nat) (arr : List α) : List α :=
  shuffleLoop j (arr.length - 1) arr

/-- The value `Math.floor(Math.random() * (i + 1))` drawn at loop index `i` while
an array of length `n` is shuffled: the loop starts at `i = n - 1`, so index `i`
makes call number `n - 1 - i` of the random source. -/
def draws (rng : Rng) (n : Nat) (i : Nat) : Nat :=
  (rng (n - 1 - i)).floorMul (i + 1)

/-- The function `shuffle` of `server.js`, `api.js` and `utils.js`. -/
def shuffle {α : Type} (rng : Rng) (arr : List α) : List α :=
  shuffleWith (draws rng arr.length) arr

/-- The random source left after `shuffle` ran on `arr`: one call was made for each
index from `arr.length - 1` down to `1`. -/
def afterShuffle {α : Type} (rng : Rng) (arr : List α) : Rng :=
  rng.drop (arr.length - 1)

/-- The draw sequences `(j_{n-1}, ..., j_1)` of a shuffle of `n` elements: one
value `j_i` in `[0, i]` for each loop index `i = 1, ..., n - 1`; the component at
`k` is `j_{k+1}`. -/
abbrev DrawSeq (n : Nat) : Type := (k : Fin (n - 1)) → Fin (k.val + 2)

/-- The draw function of a draw sequence: `j_i` at each loop index `i` of the
shuffle, and `0` at the indices the loop does not visit. -/
def DrawSeq.toFun {n : Nat} (d : DrawSeq n) (i : Nat) : Nat :=
  if h : 1 ≤ i ∧ i - 1 < n - 1 then (d ⟨i - 1, h.2⟩).val else 0


/-! ## The index -/

/-- A lesson record `{ questions, title }` as `loadMCQs` stores it. -/
structure LessonRecord (Q : Type) where
  questions : List Q
  title : String
  deriving DecidableEq, Repr

/-- A value stored in `db` by `loadMCQs`: a lesson record, or the empty array `[]`
that the `catch` branch stores for a file that `JSON.parse` rejects. -/
inductive Entry (Q : Type) where
  | record (r : LessonRecord Q)
  | failed
  deriving DecidableEq, Repr

/-- The object `db`, as the list `Object.entries(db)` of its own properties in
iteration order.  The keys of a `db` are pairwise distinct, none of them is
`__proto__`, and its prototype is `Object.prototype`. -/
abbrev Index (Q : Type) : Type := List (String × Entry Q)

/-- An element of a pool built from `db`. -/
inductive Item (Q : Type) where
  /-- an element of some `questions` array -/
  | question (q : Q)
  /-- the value of `obj.questions` when `obj` has no such property -/
  | undefined
  /-- the lesson record object stored under `key` -/
  | lesson (key : String) (r : LessonRecord Q)
  deriving DecidableEq, Repr

/-- The method `key.startsWith(p)`. -/
def startsWith (key p : String) : Bool := p.toList.isPrefixOf key.toList

/-- The value of `obj.questions`, spread by `flatMap`: the elements of the array
for a lesson record, and for `[]`, which has no property `questions`, the single
element `undefined`. -/
def Entry.flatQuestions {Q : Type} : Entry Q → List (Item Q)
  | .record r => r.questions.map Item.question
  | .failed => [Item.undefined]

/-- The function `getSubjectPool`. -/
def getSubjectPool {Q : Type} (db : Index Q) (subject : String) : List (Item Q) :=
  (db.filter (fun e => startsWith e.1 (subject ++ "-"))).flatMap (fun e => e.2.flatQuestions)

/-- The expression `Object.values(db).flat()` of `server.js`: `flat` spreads the
values that are arrays, so `[]` gives nothing, and keeps every other value, so a
lesson record object becomes one element. -/
def valuesFlat {Q : Type} (db : Index Q) : List (Item Q) :=
  db.flatMap (fun e =>
    match e.2 with
    | .record r => [Item.lesson e.1 r]
    | .failed => [])

/-- The names of the properties that every object inherits from
`Object.prototype`. -/
def objectPrototypeNames : List String :=
  ["constructor", "__proto__", "hasOwnProperty", "isPrototypeOf", "propertyIsEnumerable",
   "toLocaleString", "toString", "valueOf", "__defineGetter__", "__defineSetter__",
   "__lookupGetter__", "__lookupSetter__"]

/-- The value of a property read `db[key]`. -/
inductive Lookup (Q : Type) where
  /-- an own property of `db` -/
  | own (e : Entry Q)
  /-- a property inherited from `Object.prototype`: a truthy value without a
  property `questions` -/
  | inherited
  /-- no such property: `undefined` -/
  | undefined
  deriving DecidableEq, Repr

/-- The property read `db[key]`. -/
def dbGet {Q : Type} (db : Index Q) (key : String) : Lookup Q :=
  match db.lookup key with
  | some e => .own e
  | none => if key ∈ objectPrototypeNames then .inherited else .undefined

/-! ## Responses -/

/-- The outcome of a request handler. -/
inductive Response (β : Type) where
  /-- `res.json(body)`, status 200 -/
  | ok (body : β)
  /-- `res.status(400).json({ error })` -/
  | badRequest (error : String)
  /-- the handler threw a `TypeError` -/
  | typeError
  deriving DecidableEq, Repr

/-- A query parameter is truthy when it is present and not the empty string. -/
def truthy : Option String → Option String
  | some s => if s = "" then none else some s
  | none => none

/-! ## GET /api/mcqs -/

/-- The query of `GET /api/mcqs`: the strings `lesson` and `subject`, and for
`page`, `pageSize` and `count` the integer `parseInt` reads, `none` when the
parameter is absent or empty. -/
structure McqsQuery where
  lesson : Option String
  subject : Option String
  page : Option Nat
  pageSize : Option Nat
  count : Option Nat

/-- The body `{ items, total, page, pageSize, totalPages }`. -/
structure McqsBody (Q : Type) where
  items : List (Item Q)
  total : Nat
  page : Nat
  pageSize : Nat
  totalPages : Nat
  deriving DecidableEq, Repr

/-- The constant `page`: `Math.max(1, parseInt(req.query.page || '1'))`. -/
def McqsQuery.pageNumber (q : McqsQuery) : Nat := max 1 (q.page.getD 1)

/-- The constant `effectivePageSize`. -/
def McqsQuery.effectivePageSize (q : McqsQuery) : Nat :=
  let pageSize := max 1 (q.pageSize.getD 10)
  match q.pageSize with
  | some _ => pageSize
  | none =>
    match q.count with
    | some c => max 1 c
    | none => pageSize

/-- The pool resolution of the handler (the `if (lesson) ... else if (subject) ...
else ...` statement): the value of `pool` when no response was sent, `none`
standing for `undefined`. -/
def resolvePool {Q : Type} (db : Index Q) (q : McqsQuery) : Response (Option (List (Item Q))) :=
  match truthy q.lesson with
  | some lesson =>
    match dbGet db lesson with
    | .undefined => .badRequest "Invalid lesson key"
    | .own (.record r) => .ok (some (r.questions.map Item.question))
    | .own .failed => .ok none
    | .inherited => .ok none
  | none =>
    match truthy q.subject with
    | some subject =>
      let pool := getSubjectPool db subject
      if pool.length = 0 then .badRequest ("No questions found for subject " ++ subject)
      else .ok (some pool)
    | none => .badRequest "Must provide lesson or subject"

/-- The rest of the handler, from `const total = pool.length` on. -/
def takePage {Q : Type} (rng : Rng) (pool : List (Item Q)) (page effectivePageSize : Nat) :
    McqsBody Q :=
  let total := pool.length
  let start := (page - 1) * effectivePageSize
  let shuffled := shuffle rng pool
  let paged := (shuffled.drop start).take effectivePageSize
  { items := paged
    total := total
    page := page
    pageSize := effectivePageSize
    totalPages := (total + effectivePageSize - 1) / effectivePageSize }

/-- The handler of `GET /api/mcqs`.  Reading `pool.length` of `undefined` throws. -/
def mcqsHandler {Q : Type} (db : Index Q) (rng : Rng) (q : McqsQuery) : Response (McqsBody Q) :=
  match resolvePool db q with
  | .badRequest e => .badRequest e
  | .typeError => .typeError
  | .ok none => .typeError
  | .ok (some pool) => .ok (takePage rng pool q.pageNumber q.effectivePageSize)

/-! ## GET /api/mcqs/random -/

/-- The body `{ items, total, requested, delivered }`. -/
structure RandomBody (Q : Type) where
  items : List (Item Q)
  total : Nat
  requested : Nat
  delivered : Nat
  deriving DecidableEq, Repr

/-- The pool the handler of `GET /api/mcqs/random` selects for `subject`. -/
def randomPool {Q : Type} (db : Index Q) (subject : Option String) : List (Item Q) :=
  if subject = some "pharmacology" then getSubjectPool db "pharmacology"
  else if subject = some "pathology" then getSubjectPool db "pathology"
  else if subject = some "both" then
    getSubjectPool db "pharmacology" ++ getSubjectPool db "pathology"
  else valuesFlat db

/-- The handler of `GET /api/mcqs/random`; `count` is the integer `parseInt` reads,
`none` when the parameter is absent or empty. -/
def randomHandler {Q : Type} (db : Index Q) (rng : Rng) (subject : Option String)
    (count : Option Nat) : Response (RandomBody Q) :=
  let count := max 1 (count.getD 10)
  let pool := randomPool db subject
  if pool.length = 0 then
    .badRequest ("No questions found for subject " ++ subject.getD "undefined")
  else
    let shuffled := shuffle rng pool
    let items := shuffled.take (min count shuffled.length)
    .ok { items := items, total := pool.length, requested := count, delivered := items.length }

/-! ## GET /api/mcqs/finals -/

/-- A ratio `num / den`; `0.5` is `1 / 2`. -/
structure Ratio where
  num : Nat
  den : Nat
  deriving DecidableEq, Repr

/-- The quota `Math.floor(count * ratio)`. -/
def Ratio.quota (ratio : Ratio) (count : Nat) : Nat := count * ratio.num / ratio.den

/-- The constant `FINALS_RATIO`, as the list of its entries. -/
def FINALS_RATIO : List (String × Ratio) :=
  [("pharmacology", ⟨1, 2⟩), ("pathology", ⟨1, 2⟩)]

/-- The body `{ items, requested, delivered, ratio }`. -/
structure FinalsBody (Q : Type) where
  items : List (Item Q)
  requested : Nat
  delivered : Nat
  ratio : List (String × Ratio)
  deriving DecidableEq, Repr

/-- The loop `Object.entries(ratios).forEach(...)`: the value of `result` after the
remaining entries were processed, and the random source left. -/
def strata {Q : Type} (db : Index Q) (count : Nat) :
    List (String × Ratio) → Rng → List (Item Q) → List (Item Q) × Rng
  | [], rng, result => (result, rng)
  | (subject, ratio) :: rest, rng, result =>
    let pool := shuffle rng (getSubjectPool db subject)
    let n := ratio.quota count
    strata db count rest (afterShuffle rng (getSubjectPool db subject)) (result ++ pool.take n)

/-- The constant `filler`, for the value of `result` after the loop. -/
def finalsFiller {Q : Type} [DecidableEq Q] (db : Index Q) (rng : Rng) (count : Nat)
    (result : List (Item Q)) : List (Item Q) :=
  let combined := shuffle rng (valuesFlat db)
  let needed := count - result.length
  (combined.filter (fun q => !result.contains q)).take needed

/-- The handler of `GET /api/mcqs/finals`, for a ratio mapping `ratios`. -/
def finalsWith {Q : Type} [DecidableEq Q] (ratios : List (String × Ratio)) (db : Index Q)
    (rng : Rng) (count : Option Nat) : Response (FinalsBody Q) :=
  let count := max 1 (count.getD 50)
  let (result, rng) := strata db count ratios rng []
  let result :=
    if result.length < count then result ++ finalsFiller db rng count result else result
  .ok { items := result, requested := count, delivered := result.length, ratio := ratios }

/-- The handler of `GET /api/mcqs/finals`. -/
def finalsHandler {Q : Type} [DecidableEq Q] (db : Index Q) (rng : Rng) (count : Option Nat) :
    Response (FinalsBody Q) :=
  finalsWith FINALS_RATIO db rng count

/-! ## GET /mcqs/finals of `netlify/functions/api.js` -/

/-- The expression `Object.values(db).flatMap(obj => obj.questions)` of `api.js`. -/
def valuesQuestions {Q : Type} (db : Index Q) : List (Item Q) :=
  db.flatMap (fun e => e.2.flatQuestions)

/-- The constant `filler` of `api.js`, for the value of `result` after the loop. -/
def apiFinalsFiller {Q : Type} [DecidableEq Q] (db : Index Q) (rng : Rng) (count : Nat)
    (result : List (Item Q)) : List (Item Q) :=
  let combined := shuffle rng (valuesQuestions db)
  let needed := count - result.length
  (combined.filter (fun q => !result.contains q)).take needed

/-- The handler of `GET /mcqs/finals` of `api.js`. -/
def apiFinalsHandler {Q : Type} [DecidableEq Q] (db : Index Q) (rng : Rng)
    (count : Option Nat) : Response (FinalsBody Q) :=
  let count := max 1 (count.getD 50)
  let (result, rng) := strata db count FINALS_RATIO rng []
  let result :=
    if result.length < count then result ++ apiFinalsFiller db rng count result else result
  .ok { items := result, requested := count, delivered := result.length,
        ratio := FINALS_RATIO }

/-! ## GET /mcqs/random of `netlify/functions/api.js` -/

/-- The pool the handler of `GET /mcqs/random` of `api.js` selects for `subject`. -/
def apiRandomPool {Q : Type} (db : Index Q) (subject : Option String) : List (Item Q) :=
  if subject = some "pharmacology" then getSubjectPool db "pharmacology"
  else if subject = some "pathology" then getSubjectPool db "pathology"
  else if subject = some "both" then
    getSubjectPool db "pharmacology" ++ getSubjectPool db "pathology"
  else valuesQuestions db

/-- The handler of `GET /mcqs/random` of `api.js`; `count` is the integer
`parseInt` reads, `none` when the parameter is absent or empty. -/
def apiRandomHandler {Q : Type} (db : Index Q) (rng : Rng) (subject : Option String)
    (count : Option Nat) : Response (RandomBody Q) :=
  let count := max 1 (count.getD 10)
  let pool := apiRandomPool db subject
  if pool.length = 0 then
    .badRequest ("No questions found for subject " ++ subject.getD "undefined")
  else
    let shuffled := shuffle rng pool
    let items := shuffled.take (min count shuffled.length)
    .ok { items := items, total := pool.length, requested := count, delivered := items.length }

/-! ## loadMCQs -/

/-- The value `JSON.parse` returns for a lesson file, as far as `loadMCQs` looks at
it.  A `title` that is not a string is outside the model. -/
inductive Payload (Q : Type) where
  /-- an array: `Array.isArray(data)` -/
  | array (data : List Q)
  /-- an object that is no array: `questions` is `some l` when `data.questions` is
  the array `l`, and `title` is the string `data.title`, `none` when there is no
  such property -/
  | object (questions : Option (List Q)) (title : Option String)
  /-- `null`, a boolean, a number or a string -/
  | other
  deriving DecidableEq, Repr

/-- An entry of a directory: a directory with its entries in `readdirSync` order, or a
file with the outcome of `JSON.parse` on its text, `none` when it throws. -/
inductive Node (Q : Type) where
  | dir (name : String) (children : List (Node Q))
  | file (name : String) (content : Option (Payload Q))

/-- The method `file.endsWith(suffix)`. -/
def endsWith (file suffix : String) : Bool := suffix.toList.isSuffixOf file.toList

/-- The name `path.basename(file, '.json')` of a file name that ends in `.json`. -/
def basenameJson (file : String) : String :=
  String.mk (file.toList.take (file.toList.length - 5))

/-- The constant `key`: `subject` is `null` at the root and never the empty string
below it. -/
def leafKey (subject : Option String) (lessonName : String) : String :=
  match truthy subject with
  | some s => s ++ "-" ++ lessonName
  | none => lessonName

/-- The value the `try` statement stores under `key`. -/
def leafEntry {Q : Type} (key : String) : Option (Payload Q) → Entry Q
  | some (.array data) => .record { questions := data, title := key }
  | some (.object (some questions) title) =>
    .record { questions := questions, title := (truthy title).getD key }
  | some (.object none _) => .record { questions := [], title := key }
  | some .other => .record { questions := [], title := key }
  | none => .failed

/-- The array index a property key denotes: the key is the decimal numeral,
without leading zero, of a number below `2^32 - 1`. -/
def arrayIndex (key : String) : Option Nat :=
  let cs := key.toList
  if cs.all Char.isDigit && !cs.isEmpty && (cs.length == 1 || cs.head? != some '0') then
    let n := cs.foldl (fun acc c => 10 * acc + (c.toNat - 48)) 0
    if n < 2 ^ 32 - 1 then some n else none
  else none

/-- The place of a new property whose key is the array index `n`: array indices
come first in `Object.entries`, in ascending order. -/
def insertIndexed {Q : Type} (n : Nat) (key : String) (v : Entry Q) : Index Q → Index Q
  | [] => [(key, v)]
  | e :: rest =>
    match arrayIndex e.1 with
    | some m => if m < n then e :: insertIndexed n key v rest else (key, v) :: e :: rest
    | none => (key, v) :: e :: rest

/-- The assignment `db[key] = v`.  For the key `__proto__` it runs the setter that
`db` inherits from `Object.prototype`: the object `v` becomes the prototype of
`db` and no own property is added, so the own properties stay as they are (the
handlers are modelled on a `db` whose prototype is `Object.prototype`).  For any
other key an own property keeps its place, a new property whose key is an array
index is placed among the array indices, and any other new property comes
last. -/
def dbSet {Q : Type} (db : Index Q) (key : String) (v : Entry Q) : Index Q :=
  if key = "__proto__" then db
  else if db.any (fun e => e.1 == key) then
    db.map (fun e => if e.1 = key then (key, v) else e)
  else
    match arrayIndex key with
    | some n => insertIndexed n key v db
    | none => db ++ [(key, v)]

mutual
/-- The body of `files.forEach(file => ...)` on one entry of the directory. -/
def visit {Q : Type} (subject : Option String) : Node Q → Index Q → Index Q
  | .dir name children, db => walk (some name) children db
  | .file name content, db =>
    if endsWith name ".json" then
      dbSet db (leafKey subject (basenameJson name))
        (leafEntry (leafKey subject (basenameJson name)) content)
    else db
/-- The function `walk` on the entries of a directory. -/
def walk {Q : Type} (subject : Option String) : List (Node Q) → Index Q → Index Q
  | [], db => db
  | n :: rest, db => walk subject rest (visit subject n db)
end

/-- The function `loadMCQs` on the entries of `baseDir`: the own properties of the
object it returns. -/
def loadMCQs {Q : Type} (baseDir : List (Node Q)) : Index Q :=
  walk none baseDir []

/-! ## listLessons and GET /api/lessons -/

/-- The first group of the match of `/(?:lesson[-_]?)?(\d+)$/i`: the longest run of
ASCII digits that ends the key.  The marker holds no digit and the match is the
leftmost one, so the run is never cut short. -/
def trailingDigits (key : String) : List Char :=
  (key.toList.reverse.takeWhile Char.isDigit).reverse

/-- The unit in the last place of the double nearest to `n`: it is `1` for a
number below `2^53` and doubles with each halving of `n` that it takes to get
there.  The first argument bounds the number of halvings. -/
def ulp : Nat → Nat → Nat
  | 0, _ => 1
  | fuel + 1, n => if n < 2 ^ 53 then 1 else 2 * ulp fuel (n / 2)

/-- The function `Number` on a run of decimal digits that denotes `n`: the double
nearest to `n`, the one with the even significand when two are as near, given by
its value.  The rounding reaches `2^1024` only past the largest double: that
value stands for `Infinity`. -/
def Number (n : Nat) : Nat :=
  let u := ulp n n
  let q := n / u
  let r := n % u
  let m := if u < 2 * r ∨ (2 * r = u ∧ q % 2 = 1) then q + 1 else q
  min (m * u) (2 ^ 1024)

/-- The function `extractLessonNumber`, `none` standing for `NaN`. -/
def extractLessonNumber (key : String) : Option Nat :=
  match trailingDigits key with
  | [] => none
  | ds => some (Number (ds.foldl (fun n c => 10 * n + (c.toNat - 48)) 0))

/-- An element of the array that `listLessons` sorts. -/
structure LessonRow where
  key : String
  title : String
  count : Nat
  _num : Option Nat
  deriving DecidableEq, Repr

/-- An element of the array that `listLessons` returns. -/
structure LessonInfo where
  key : String
  title : String
  count : Nat
  deriving DecidableEq, Repr

/-- The first `map` of `listLessons`: `obj.title || key` and the length of
`obj.questions` when it is an array. -/
def lessonRow {Q : Type} (e : String × Entry Q) : LessonRow :=
  match e.2 with
  | .record r =>
    { key := e.1, title := if r.title = "" then e.1 else r.title, count := r.questions.length,
      _num := extractLessonNumber e.1 }
  | .failed => { key := e.1, title := e.1, count := 0, _num := extractLessonNumber e.1 }

/-- The expression `Number.isFinite(x) ? x : Infinity`, `none` standing for
`Infinity`. -/
def finiteOrInfinity (x : Option Nat) : Option Nat :=
  match x with
  | some n => if n < 2 ^ 1024 then some n else none
  | none => none

/-- The comparator of `listLessons`, as far as its sign goes: the difference of two
doubles has the sign of the difference of their values, and `localeCompare` is the
method `a.key.localeCompare(b.key, undefined, { numeric: true, sensitivity: 'base' })`
of the runtime. -/
def compareLessons (localeCompare : String → String → Int) (a b : LessonRow) : Int :=
  match finiteOrInfinity a._num, finiteOrInfinity b._num with
  | some x, some y => if x ≠ y then (x : Int) - (y : Int) else localeCompare a.key b.key
  | some _, none => -1
  | none, some _ => 1
  | none, none => localeCompare a.key b.key

/-- The last `map` of `listLessons`: the row without `_num`. -/
def LessonRow.rest (a : LessonRow) : LessonInfo :=
  { key := a.key, title := a.title, count := a.count }

/-- The filter of `listLessons`. -/
def lessonFilter {Q : Type} (subject : Option String) (e : String × Entry Q) : Bool :=
  match truthy subject with
  | some p => startsWith e.1 (p ++ "-")
  | none => true

/-- The function `listLessons`.  `Array.prototype.sort` is stable and puts `a`
before `b` when the comparator is negative; it is the stable insertion sort. -/
def listLessons {Q : Type} (localeCompare : String → String → Int) (db : Index Q)
    (subject : Option String) : List LessonInfo :=
  (((db.filter (lessonFilter subject)).map lessonRow).insertionSort
    (fun a b => compareLessons localeCompare a b ≤ 0)).map LessonRow.rest

/-- The body `{ lessons, totalLessons, page, pageSize, totalPages }`. -/
structure LessonsBody where
  lessons : List LessonInfo
  totalLessons : Nat
  page : Nat
  pageSize : Nat
  totalPages : Nat
  deriving DecidableEq, Repr

/-- The handler of `GET /api/lessons`; `page` and `pageSize` are the integers
`parseInt` reads, `none` when the parameter is absent or empty. -/
def lessonsHandler {Q : Type} (localeCompare : String → String → Int) (db : Index Q)
    (subject : Option String) (page pageSize : Option Nat) : Response LessonsBody :=
  let page := max 1 (page.getD 1)
  let pageSize := max 1 (pageSize.getD 1000)
  let allLessons := listLessons localeCompare db (truthy subject)
  let totalLessons := allLessons.length
  let start := (page - 1) * pageSize
  let paged := (allLessons.drop start).take pageSize
  .ok { lessons := paged, totalLessons := totalLessons, page := page, pageSize := pageSize,
        totalPages := (totalLessons + pageSize - 1) / pageSize }

/-! ## The regular expression of `extractLessonNumber` -/

/-- The conversion `Number(m[1])` of a run of ASCII digits. -/
def decimalValue (ds : List Char) : Nat :=
  ds.foldl (fun n c => 10 * n + (c.toNat - 48)) 0

/-- A letter of the pattern against a character under the flag `i`: the letter
itself or its capital. -/
def matchesIgnoreCase (p c : Char) : Bool := c == p || c == p.toUpper

/-- The letters `ps` of the pattern at the head of `s`: the rest of `s` when they
match. -/
def matchLiteral : List Char → List Char → Option (List Char)
  | [], s => some s
  | _ :: _, [] => none
  | p :: ps, c :: s => if matchesIgnoreCase p c then matchLiteral ps s else none

/-- The end `(\d+)$` of the pattern with at most `n` digits in the group, the
longest group first: the group when the end of `s` follows it. -/
def matchDigits (s : List Char) : Nat → Option (List Char)
  | 0 => none
  | n + 1 => if s.drop (n + 1) = [] then some (s.take (n + 1)) else matchDigits s n

/-- The end `(\d+)$` of the pattern at the head of `s`: `\d+` is greedy, it starts
with all the digits at the head of `s` and gives them back one by one. -/
def matchDigitsEnd (s : List Char) : Option (List Char) :=
  matchDigits s (s.takeWhile Char.isDigit).length

/-- The part `[-_]?(\d+)$` of the pattern at the head of `s`: the separator is
taken when it is there, and given back when the rest does not match. -/
def matchSeparator (s : List Char) : Option (List Char) :=
  match s with
  | c :: rest =>
    if c = '-' ∨ c = '_' then
      match matchDigitsEnd rest with
      | some ds => some ds
      | none => matchDigitsEnd s
    else matchDigitsEnd s
  | [] => matchDigitsEnd s

/-- The pattern `(?:lesson[-_]?)?(\d+)$` at the head of `s`: the marker is taken
when it is there, and given back when the rest does not match. -/
def matchHere (s : List Char) : Option (List Char) :=
  match matchLiteral "lesson".toList s with
  | some rest =>
    match matchSeparator rest with
    | some ds => some ds
    | none => matchDigitsEnd s
  | none => matchDigitsEnd s

/-- The search of `key.match(...)`: the pattern is tried at each position from the
left, and the first match counts.  The value is its group `m[1]`, `none` when `m`
is `null`. -/
def matchFrom : List Char → Option (List Char)
  | [] => matchHere []
  | c :: s =>
    match matchHere (c :: s) with
    | some ds => some ds
    | none => matchFrom s

/-- The function `extractLessonNumber` read off the regular expression:
`m ? Number(m[1]) : NaN`. -/
def extractLessonNumberOfMatch (key : String) : Option Nat :=
  (matchFrom key.toList).map (fun ds => Number (decimalValue ds))

/-- A list of characters ends with a character that is no digit, or is empty. -/
def EndsWithoutDigit (pre : List Char) : Prop :=
  pre = [] ∨ ∃ (pre' : List Char) (c : Char), pre = pre' ++ [c] ∧ c.isDigit = false

/-! ## Sample data -/

/-- The random source whose every result is `0`. -/
def zeroRng : Rng := fun _ => ⟨0, 1, Nat.zero_lt_one⟩

/-- A lesson of `n` questions numbered from `start`. -/
def sampleLesson (key : String) (start n : Nat) : String × Entry Nat :=
  (key, .record { questions := (List.range n).map (fun k => start + k), title := key })

/-- An index of two lessons: three pharmacology and two pathology questions. -/
def sampleDb : Index Nat :=
  [sampleLesson "pharmacology-lesson1" 0 3, sampleLesson "pathology-lesson1" 100 2]

/-- An index of 40 questions: 25 of pharmacology and 15 of pathology. -/
def sampleDb40 : Index Nat :=
  [sampleLesson "pharmacology-lesson1" 0 25, sampleLesson "pathology-lesson1" 100 15]

/-- An index of 50 questions: 25 of pharmacology and 25 of pathology. -/
def sampleDb50 : Index Nat :=
  [sampleLesson "pharmacology-lesson1" 0 25, sampleLesson "pathology-lesson1" 100 25]

/-! ## Definitions in the words of the specification, and inputs for the examples -/

/-- The questions list of an index entry as the specification has it: the list of
the record, and the empty list for a file that failed to parse. -/
def Entry.questionList {Q : Type} : Entry Q → List Q
  | .record r => r.questions
  | .failed => []

/-- The pool of a subject as the specification has it: the concatenation, in
iteration order, of the questions lists of the entries whose key starts with
`subject + "-"`. -/
def subjectQuestions {Q : Type} (db : Index Q) (subject : String) : List Q :=
  (db.filter (fun e => startsWith e.1 (subject ++ "-"))).flatMap (fun e => e.2.questionList)

/-- The slice of a subject in the words of the specification: the first
`min(floor(count * ratio), |subject pool|)` elements of a shuffle of the pool of
the subject. -/
def subjectSlice {Q : Type} (db : Index Q) (rng : Rng) (subject : String) (ratio : Ratio)
    (count : Nat) : List (Item Q) :=
  (shuffle rng (getSubjectPool db subject)).take
    (min (ratio.quota count) (getSubjectPool db subject).length)

/-- A ratio mapping with ratios `1` and `1`, both in `(0, 1]`. -/
def fullRatios : List (String × Ratio) :=
  [("pharmacology", ⟨1, 1⟩), ("pathology", ⟨1, 1⟩)]

/-- A ratio mapping with ratios `1/3` and `1/3`. -/
def thirdRatios : List (String × Ratio) :=
  [("pharmacology", ⟨1, 3⟩), ("pathology", ⟨1, 3⟩)]

/-- An index whose only lesson file failed to parse. -/
def failedLeafDb : Index Nat := [("pharmacology-lesson1", .failed)]

/-- A lesson file of the source tree: the names of the groups above it, the
outermost first and none for a file directly under the root, its name without
`.json`, and the outcome of decoding it. -/
structure Leaf (Q : Type) where
  path : List String
  leafName : String
  content : Option (Payload Q)

mutual
/-- The lesson files below an entry of a group, in depth-first order. -/
def leavesOfNode {Q : Type} (path : List String) : Node Q → List (Leaf Q)
  | .dir name children => leavesOf (path ++ [name]) children
  | .file name content =>
    if endsWith name ".json" then
      [{ path := path, leafName := basenameJson name, content := content }]
    else []
/-- The lesson files below the entries of a group, in depth-first order. -/
def leavesOf {Q : Type} (path : List String) : List (Node Q) → List (Leaf Q)
  | [] => []
  | n :: rest => leavesOfNode path n ++ leavesOf path rest
end

/-- The key of a lesson file in the words of the specification: the name of the
file for a file directly under the root, and otherwise the name of the immediate
parent group, `-` and the name of the file. -/
def Leaf.key {Q : Type} (l : Leaf Q) : String :=
  match l.path.getLast? with
  | none => l.leafName
  | some parent => parent ++ "-" ++ l.leafName

/-- The value computed from a lesson file for its key. -/
def Leaf.entry {Q : Type} (l : Leaf Q) : Entry Q := leafEntry l.key l.content

mutual
/-- No directory below the entry has the empty name. -/
def Node.namesOk {Q : Type} : Node Q → Bool
  | .dir name children => name != "" && namesOkList children
  | .file _ _ => true
/-- No directory below the entries has the empty name. -/
def namesOkList {Q : Type} : List (Node Q) → Bool
  | [] => true
  | n :: rest => n.namesOk && namesOkList rest
end

/-- A source tree: a pharmacology group with two lessons, one nested group and a
file that is no lesson, and two lessons directly under the root. -/
def sampleTree : List (Node Nat) :=
  [.dir "pharmacology"
      [.file "lesson1.json" (some (.array [1, 2, 3])), .file "notes.txt" none,
       .dir "extra" [.dir "deep" [.file "lesson9.json" (some (.array [9]))]],
       .file "lesson2.json" (some (.object (some [4, 5]) (some "X")))],
   .file "intro.json" (some (.object (some [6]) none)),
   .file "7.json" (some .other)]

/-- A source tree in which two files flatten to the key `pharmacology-lesson1`. -/
def collidingTree : List (Node Nat) :=
  [.dir "pharmacology" [.file "lesson1.json" (some (.array [1, 2, 3]))],
   .dir "old" [.dir "pharmacology" [.file "lesson1.json" (some (.array [4]))]]]

/-- A source tree with the lesson files `__proto__.json` and `intro.json` directly
under the root. -/
def protoTree : List (Node Nat) :=
  [.file "__proto__.json" (some (.array [1])), .file "intro.json" (some (.array [2, 3]))]

/-- A source tree whose file `pharmacology/lesson1.json` does not parse. -/
def failingTree : List (Node Nat) :=
  [.dir "pharmacology"
      [.file "lesson1.json" none, .file "lesson2.json" (some (.array [1, 2]))]]

/-- The lessons that the handler of `/lessons` returns for a page. -/
def lessonsPage {Q : Type} (localeCompare : String → String → Int) (db : Index Q)
    (subject : Option String) (page pageSize : Nat) : List LessonInfo :=
  match lessonsHandler localeCompare db subject (some page) (some pageSize) with
  | .ok body => body.lessons
  | _ => []

/-- The entry of a lesson in the words of the specification: its key, its title,
the key when the title is empty, and the length of its questions list. -/
def lessonInfo {Q : Type} (e : String × Entry Q) : LessonInfo :=
  { key := e.1
    title :=
      match e.2 with
      | .record r => if r.title = "" then e.1 else r.title
      | .failed => e.1
    count := e.2.questionList.length }

/-- A source tree whose two pharmacology files do not parse. -/
def twoFailedTree : List (Node Nat) :=
  [.dir "pharmacology" [.file "lesson1.json" none, .file "lesson2.json" none]]

/-- The lesson number that the listing derives from a key: the number of
`extractLessonNumber` when it is finite, and `none`, which stands for `+infinity`,
otherwise. -/
def lessonNumber (key : String) : Option Nat := finiteOrInfinity (extractLessonNumber key)

/-- The order of lesson numbers, a key without number counting as `+infinity`. -/
def numLe : Option Nat → Option Nat → Prop
  | some x, some y => x ≤ y
  | _, none => True
  | none, some _ => False

/-- The order of the listing in the words of the specification: the lesson numbers
derived from the keys do not decrease, and entries with equal or absent numbers
are in the order of the comparison of their keys. -/
def lessonOrder (localeCompare : String → String → Int) (a b : LessonInfo) : Prop :=
  numLe (lessonNumber a.key) (lessonNumber b.key) ∧
    (lessonNumber a.key = lessonNumber b.key → localeCompare a.key b.key ≤ 0)

/-- A comparison of keys by code points, to stand for `localeCompare` in the
examples. -/
def codePointCompare (a b : String) : Int :=
  if a < b then -1 else if a = b then 0 else 1

/-- An index with the lessons 1, 10 and 2 of pharmacology and one of pathology. -/
def lessonsDb : Index Nat :=
  [sampleLesson "pharmacology-lesson1" 0 1, sampleLesson "pharmacology-lesson10" 10 3,
   sampleLesson "pharmacology-lesson2" 20 2, sampleLesson "pathology-lesson1" 30 1]

/-- An index whose two keys end in `2^53` and in `2^53 + 1`: `Number` gives `2^53`
for both. -/
def roundingDb : Index Nat :=
  [sampleLesson "b9007199254740992" 0 1, sampleLesson "a9007199254740993" 10 1]

/-- A key that ends in 310 digits `9`: `Number` gives `Infinity` for them. -/
def overflowKey : String := String.mk ('z' :: List.replicate 310 '9')

/-- An index with a key whose number is `Infinity`, a key without number and the
key `lesson5`. -/
def overflowDb : Index Nat :=
  [sampleLesson overflowKey 0 1, sampleLesson "intro" 10 1, sampleLesson "lesson5" 20 1]

/-! ## Facts about `swap` and the shuffle loop -/

theorem swap_of_lt {α : Type} (a : List α) {i j : Nat} (hi : i < a.length) (hj : j < a.length) :
    swap a i j = (a.set i a[j]).set j a[i] := by
  simp [swap, List.getElem?_eq_getElem hi, List.getElem?_eq_getElem hj]

theorem swap_length {α : Type} (a : List α) (i j : Nat) : (swap a i j).length = a.length := by
  unfold swap
  split <;> simp

theorem swap_getElem? {α : Type} (a : List α) {i j : Nat} (hi : i < a.length)
    (hj : j < a.length) (k : Nat) :
    (swap a i j)[k]? = if k = j then a[i]? else if k = i then a[j]? else a[k]? := by
  rw [swap_of_lt a hi hj, List.getElem?_set, List.getElem?_set]
  by_cases h1 : k = j
  · subst h1
    simp [hj, List.getElem?_eq_getElem hi]
  · by_cases h2 : k = i
    · subst h2
      simp [h1, Ne.symm h1, hi, List.getElem?_eq_getElem hj]
    · simp [h1, h2, Ne.symm h1, Ne.symm h2]

theorem swap_perm {α : Type} (a : List α) (i j : Nat) : (swap a i j).Perm a := by
  by_cases hi : i < a.length
  · by_cases hj : j < a.length
    · have key : swap a i j
          = List.ofFn (a.get ∘ (Equiv.swap (⟨i, hi⟩ : Fin a.length) ⟨j, hj⟩)) := by
        apply List.ext_getElem?
        intro k
        rw [swap_getElem? a hi hj]
        by_cases hk : k < a.length
        · have e : (List.ofFn (a.get ∘ (Equiv.swap (⟨i, hi⟩ : Fin a.length) ⟨j, hj⟩)))[k]?
              = some (a.get (Equiv.swap (⟨i, hi⟩ : Fin a.length) ⟨j, hj⟩ ⟨k, hk⟩)) := by
            rw [List.getElem?_eq_getElem (by simpa using hk), List.getElem_ofFn]
            rfl
          rw [e]
          simp only [Equiv.swap_apply_def, List.get_eq_getElem]
          by_cases h1 : k = j
          · subst h1
            by_cases h2 : k = i
            · subst h2
              simp
            · simp [h2, Fin.ext_iff, List.getElem?_eq_getElem hi]
          · by_cases h2 : k = i
            · subst h2
              simp [h1, Fin.ext_iff, List.getElem?_eq_getElem hj]
            · simp [h1, h2, Fin.ext_iff, List.getElem?_eq_getElem hk]
        · have hk1 : k ≠ j := by omega
          have hk2 : k ≠ i := by omega
          rw [if_neg hk1, if_neg hk2, List.getElem?_eq_none (by omega),
            List.getElem?_eq_none (by simp; omega)]
      rw [key]
      have h := Equiv.Perm.ofFn_comp_perm (Equiv.swap (⟨i, hi⟩ : Fin a.length) ⟨j, hj⟩) a.get
      rwa [List.ofFn_get] at h
    · simp [swap, List.getElem?_eq_none (Nat.le_of_not_lt hj)]
  · simp [swap, List.getElem?_eq_none (Nat.le_of_not_lt hi)]

theorem shuffleLoop_perm {α : Type} (j : Nat → Nat) (i : Nat) (a : List α) :
    (shuffleLoop j i a).Perm a := by
  induction i generalizing a with
  | zero => exact List.Perm.refl a
  | succ i ih => exact (ih _).trans (swap_perm a _ _)

theorem shuffleWith_perm {α : Type} (j : Nat → Nat) (arr : List α) :
    (shuffleWith j arr).Perm arr :=
  shuffleLoop_perm j _ arr

theorem shuffle_perm_pool {α : Type} (rng : Rng) (arr : List α) : (shuffle rng arr).Perm arr :=
  shuffleWith_perm _ arr

theorem shuffle_length {α : Type} (rng : Rng) (arr : List α) :
    (shuffle rng arr).length = arr.length :=
  (shuffle_perm_pool rng arr).length_eq

theorem Rand.floorMul_lt (u : Rand) {n : Nat} (hn : 0 < n) : u.floorMul n < n := by
  unfold Rand.floorMul
  have hd : 0 < u.den := Nat.lt_of_le_of_lt (Nat.zero_le _) u.lt
  rw [Nat.div_lt_iff_lt_mul hd]
  have := u.lt
  calc u.num * n < u.den * n := Nat.mul_lt_mul_of_pos_right this hn
    _ = n * u.den := Nat.mul_comm _ _

theorem draws_le (rng : Rng) (n i : Nat) : draws rng n i ≤ i :=
  Nat.lt_succ_iff.mp ((rng (n - 1 - i)).floorMul_lt (Nat.succ_pos i))

theorem shuffleLoop_length {α : Type} (j : Nat → Nat) (i : Nat) (a : List α) :
    (shuffleLoop j i a).length = a.length :=
  (shuffleLoop_perm j i a).length_eq

/-- The loop started at `i` reads the draws at the indices `1, ..., i` only. -/
theorem shuffleLoop_congr {α : Type} (j j' : Nat → Nat) (i : Nat) (a : List α)
    (h : ∀ m, 1 ≤ m → m ≤ i → j m = j' m) : shuffleLoop j i a = shuffleLoop j' i a := by
  induction i generalizing a with
  | zero => rfl
  | succ i ih =>
    simp only [shuffleLoop]
    rw [h (i + 1) (by omega) (Nat.le_refl _)]
    exact ih _ (fun m h1 h2 => h m h1 (by omega))

/-- The loop started at `i` leaves every position above `i` as it is. -/
theorem shuffleLoop_getElem?_of_lt {α : Type} (j : Nat → Nat) (i : Nat) (a : List α)
    (hi : i < a.length) (hj : ∀ m, 1 ≤ m → m ≤ i → j m ≤ m) (k : Nat) (hk : i < k) :
    (shuffleLoop j i a)[k]? = a[k]? := by
  induction i generalizing a with
  | zero => rfl
  | succ i ih =>
    simp only [shuffleLoop]
    have hb := hj (i + 1) (by omega) (Nat.le_refl _)
    rw [ih (swap a (i + 1) (j (i + 1))) (by rw [swap_length]; omega)
      (fun m h1 h2 => hj m h1 (by omega)) (by omega)]
    rw [swap_getElem? a hi (by omega), if_neg (by omega), if_neg (by omega)]

/-- After the loop, position `i + 1` holds the element the first iteration drew. -/
theorem shuffleLoop_getElem?_top {α : Type} (j : Nat → Nat) (i : Nat) (a : List α)
    (hi : i + 1 < a.length) (hj : ∀ m, 1 ≤ m → m ≤ i + 1 → j m ≤ m) :
    (shuffleLoop j (i + 1) a)[i + 1]? = a[j (i + 1)]? := by
  simp only [shuffleLoop]
  have hb := hj (i + 1) (by omega) (Nat.le_refl _)
  rw [shuffleLoop_getElem?_of_lt j i _ (by rw [swap_length]; omega)
    (fun m h1 h2 => hj m h1 (by omega)) (i + 1) (by omega)]
  rw [swap_getElem? a hi (by omega)]
  by_cases h : i + 1 = j (i + 1)
  · rw [if_pos h, ← h]
  · rw [if_neg h, if_pos rfl]

/-- On a list without repetition the result of the loop determines the draws. -/
theorem shuffleLoop_draws_eq {α : Type} (i : Nat) (a : List α) (j j' : Nat → Nat)
    (hnd : a.Nodup) (hi : i < a.length) (hj : ∀ m, 1 ≤ m → m ≤ i → j m ≤ m)
    (hj' : ∀ m, 1 ≤ m → m ≤ i → j' m ≤ m) (heq : shuffleLoop j i a = shuffleLoop j' i a) :
    ∀ m, 1 ≤ m → m ≤ i → j m = j' m := by
  induction i generalizing a with
  | zero =>
    intro m h1 h2
    omega
  | succ i ih =>
    have h1 := shuffleLoop_getElem?_top j i a hi hj
    have h2 := shuffleLoop_getElem?_top j' i a hi hj'
    have hb := hj (i + 1) (by omega) (Nat.le_refl _)
    have hb' := hj' (i + 1) (by omega) (Nat.le_refl _)
    rw [heq, h2] at h1
    have top : j (i + 1) = j' (i + 1) := by
      rw [List.getElem?_eq_getElem (show j' (i + 1) < a.length by omega),
        List.getElem?_eq_getElem (show j (i + 1) < a.length by omega)] at h1
      exact (hnd.getElem_inj_iff.mp (Option.some.inj h1)).symm
    have heq' : shuffleLoop j i (swap a (i + 1) (j (i + 1)))
        = shuffleLoop j' i (swap a (i + 1) (j (i + 1))) := by
      have h3 := heq
      simp only [shuffleLoop] at h3
      rw [← top] at h3
      exact h3
    have rest := ih (swap a (i + 1) (j (i + 1))) ((swap_perm a _ _).nodup_iff.mpr hnd)
      (by rw [swap_length]; omega) (fun m h1 h2 => hj m h1 (by omega))
      (fun m h1 h2 => hj' m h1 (by omega)) heq'
    intro m hm1 hm2
    by_cases hm : m = i + 1
    · rw [hm]
      exact top
    · exact rest m hm1 (by omega)

theorem DrawSeq.toFun_le {n : Nat} (d : DrawSeq n) (m : Nat) (hm : 1 ≤ m) : d.toFun m ≤ m := by
  unfold DrawSeq.toFun
  split
  · rename_i h
    have := (d ⟨m - 1, h.2⟩).isLt
    simp only at this
    omega
  · exact Nat.zero_le _

theorem DrawSeq.toFun_succ {n : Nat} (d : DrawSeq n) (k : Fin (n - 1)) :
    d.toFun (k.val + 1) = (d k).val := by
  unfold DrawSeq.toFun
  have h : 1 ≤ k.val + 1 ∧ k.val + 1 - 1 < n - 1 := ⟨by omega, by simp⟩
  rw [dif_pos h]
  rfl

theorem shuffleWith_injective {α : Type} (pool : List α) (hnd : pool.Nodup) :
    Function.Injective (fun d : DrawSeq pool.length => shuffleWith d.toFun pool) := by
  intro d d' heq
  funext k
  have hk := k.isLt
  have h := shuffleLoop_draws_eq (pool.length - 1) pool d.toFun d'.toFun hnd (by omega)
    (fun m h1 _ => d.toFun_le m h1) (fun m h1 _ => d'.toFun_le m h1) heq
    (k.val + 1) (by omega) (by omega)
  rw [d.toFun_succ k, d'.toFun_succ k] at h
  exact Fin.ext h

theorem prod_range_add_two (m : Nat) : (∏ k ∈ Finset.range m, (k + 2)) = (m + 1).factorial := by
  induction m with
  | zero => rfl
  | succ m ih =>
    rw [Finset.prod_range_succ, ih, Nat.factorial_succ (m + 1)]
    exact Nat.mul_comm _ _

theorem card_drawSeq (n : Nat) : Fintype.card (DrawSeq n) = n.factorial := by
  rw [Fintype.card_pi]
  simp only [Fintype.card_fin]
  rw [Fin.prod_univ_eq_prod_range (fun k => k + 2) (n - 1), prod_range_add_two]
  cases n with
  | zero => rfl
  | succ n => rfl

theorem shuffleWith_surjective {α : Type} [DecidableEq α] (pool : List α) (hnd : pool.Nodup)
    (l : List α) (hl : l.Perm pool) :
    ∃ d : DrawSeq pool.length, shuffleWith d.toFun pool = l := by
  have hsub : (Finset.univ.image (fun d : DrawSeq pool.length => shuffleWith d.toFun pool))
      ⊆ pool.permutations.toFinset := by
    intro x hx
    obtain ⟨d, _, rfl⟩ := Finset.mem_image.mp hx
    exact List.mem_toFinset.mpr (List.mem_permutations.mpr (shuffleWith_perm _ _))
  have hcard : pool.permutations.toFinset.card
      ≤ (Finset.univ.image (fun d : DrawSeq pool.length => shuffleWith d.toFun pool)).card := by
    rw [Finset.card_image_of_injective _ (shuffleWith_injective pool hnd), Finset.card_univ,
      card_drawSeq, List.toFinset_card_of_nodup (List.nodup_permutations pool hnd),
      List.length_permutations]
  have heq := Finset.eq_of_subset_of_card_le hsub hcard
  have hmem : l ∈ pool.permutations.toFinset :=
    List.mem_toFinset.mpr (List.mem_permutations.mpr hl)
  rw [← heq] at hmem
  obtain ⟨d, _, hd⟩ := Finset.mem_image.mp hmem
  exact ⟨d, hd⟩


/-- Every run of `shuffle` is the run on some draw sequence. -/
theorem shuffle_eq_shuffleWith {α : Type} (rng : Rng) (pool : List α) :
    ∃ d : DrawSeq pool.length, shuffle rng pool = shuffleWith d.toFun pool := by
  refine ⟨fun k => ⟨draws rng pool.length (k.val + 1),
    Nat.lt_succ_of_le (draws_le rng pool.length (k.val + 1))⟩, ?_⟩
  apply shuffleLoop_congr
  intro m h1 h2
  unfold DrawSeq.toFun
  have h : 1 ≤ m ∧ m - 1 < pool.length - 1 := ⟨h1, by omega⟩
  rw [dif_pos h]
  show draws rng pool.length m = draws rng pool.length (m - 1 + 1)
  rw [Nat.sub_add_cancel h1]

/-- Every draw sequence is drawn from some results of `Math.random()`. -/
theorem shuffleWith_eq_shuffle {α : Type} (pool : List α) (d : DrawSeq pool.length) :
    ∃ rng : Rng, shuffle rng pool = shuffleWith d.toFun pool := by
  have hlt : ∀ m, d.toFun m < m + 1 := by
    intro m
    by_cases hm : 1 ≤ m
    · exact Nat.lt_succ_of_le (d.toFun_le m hm)
    · have h0 : m = 0 := by omega
      subst h0
      simp [DrawSeq.toFun]
  refine ⟨fun k => ⟨d.toFun (pool.length - 1 - k), pool.length - 1 - k + 1, hlt _⟩, ?_⟩
  apply shuffleLoop_congr
  intro m h1 h2
  show d.toFun (pool.length - 1 - (pool.length - 1 - m)) * (m + 1)
      / (pool.length - 1 - (pool.length - 1 - m) + 1) = d.toFun m
  have e : pool.length - 1 - (pool.length - 1 - m) = m := by omega
  rw [e]
  exact Nat.mul_div_cancel _ (Nat.succ_pos m)

theorem take_min_length {α : Type} (n : Nat) (l : List α) :
    l.take (min n l.length) = l.take n := by
  by_cases h : n ≤ l.length
  · rw [Nat.min_eq_left h]
  · have h' : l.length ≤ n := by omega
    rw [Nat.min_eq_right h', List.take_of_length_le (Nat.le_refl _), List.take_of_length_le h']

/-- The slice of a subject is what the loop of the finals handler appends:
`pool.slice(0, n)` of the shuffled pool. -/
theorem subjectSlice_eq {Q : Type} (db : Index Q) (rng : Rng) (subject : String) (ratio : Ratio)
    (count : Nat) :
    subjectSlice db rng subject ratio count
      = (shuffle rng (getSubjectPool db subject)).take (ratio.quota count) := by
  unfold subjectSlice
  rw [← shuffle_length rng (getSubjectPool db subject)]
  exact take_min_length _ _

/-- The strata loop adds at most the quota of each entry. -/
theorem strata_length_le {Q : Type} (db : Index Q) (count : Nat)
    (ratios : List (String × Ratio)) (rng : Rng) (result : List (Item Q)) :
    (strata db count ratios rng result).1.length
      ≤ result.length + (ratios.map (fun e => e.2.quota count)).sum := by
  induction ratios generalizing rng result with
  | nil => simp [strata]
  | cons e rest ih =>
    obtain ⟨subject, ratio⟩ := e
    simp only [strata, List.map_cons, List.sum_cons]
    refine Nat.le_trans (ih _ _) ?_
    rw [List.length_append, List.length_take]
    have := Nat.min_le_left (ratio.quota count)
      (shuffle rng (getSubjectPool db subject)).length
    omega

theorem finalsFiller_length_le {Q : Type} [DecidableEq Q] (db : Index Q) (rng : Rng)
    (count : Nat) (result : List (Item Q)) :
    (finalsFiller db rng count result).length ≤ count - result.length := by
  unfold finalsFiller
  rw [List.length_take]
  exact Nat.min_le_left _ _

/-- The handler answers with the result of the loop, completed by the filler when
it is shorter than `count`. -/
theorem finalsWith_eq {Q : Type} [DecidableEq Q] (ratios : List (String × Ratio))
    (db : Index Q) (rng : Rng) (count : Nat) (hc : 1 ≤ count) :
    finalsWith ratios db rng (some count)
      = .ok
        { items :=
            if (strata db count ratios rng []).1.length < count then
              (strata db count ratios rng []).1
                ++ finalsFiller db (strata db count ratios rng []).2 count
                    (strata db count ratios rng []).1
            else (strata db count ratios rng []).1
          requested := count
          delivered :=
            (if (strata db count ratios rng []).1.length < count then
              (strata db count ratios rng []).1
                ++ finalsFiller db (strata db count ratios rng []).2 count
                    (strata db count ratios rng []).1
            else (strata db count ratios rng []).1).length
          ratio := ratios } := by
  unfold finalsWith
  simp only [Option.getD_some, Nat.max_eq_right hc]

theorem finalsWith_length_le {Q : Type} [DecidableEq Q] (ratios : List (String × Ratio))
    (db : Index Q) (rng : Rng) (count : Nat) (hc : 1 ≤ count)
    (hq : (ratios.map (fun e => e.2.quota count)).sum ≤ count) :
    ∃ body, finalsWith ratios db rng (some count) = .ok body ∧ body.requested = count ∧
      body.delivered = body.items.length ∧ body.items.length ≤ count ∧ body.ratio = ratios := by
  refine ⟨_, finalsWith_eq ratios db rng count hc, rfl, rfl, ?_, rfl⟩
  have h1 := strata_length_le db count ratios rng []
  simp only
  split
  · rename_i hlt
    rw [List.length_append]
    have h2 := finalsFiller_length_le db (strata db count ratios rng []).2 count
      (strata db count ratios rng []).1
    omega
  · simp only [List.length_nil, Nat.zero_add] at h1
    omega

/-- On an index in which every file parsed, `getSubjectPool` is the pool of the
specification. -/
theorem getSubjectPool_of_parsed {Q : Type} (db : Index Q) (subject : String)
    (h : ∀ e ∈ db, e.2 ≠ Entry.failed) :
    getSubjectPool db subject = (subjectQuestions db subject).map Item.question := by
  unfold getSubjectPool subjectQuestions
  induction db with
  | nil => rfl
  | cons e rest ih =>
    have hrest : ∀ x ∈ rest, x.2 ≠ Entry.failed := fun x hx => h x (List.mem_cons_of_mem _ hx)
    have he : e.2.flatQuestions = e.2.questionList.map Item.question := by
      cases hv : e.2 with
      | record r => rfl
      | failed => exact absurd hv (h e (List.mem_cons_self _ _))
    cases hp : startsWith e.1 (subject ++ "-") with
    | true =>
      simp only [List.filter_cons, hp, if_true, List.flatMap_cons, List.map_append, he]
      rw [ih hrest]
    | false =>
      simp only [List.filter_cons, hp, Bool.false_eq_true, if_false]
      exact ih hrest

/-- The handler of `/mcqs` given a lesson key that is an own key holding a record
resolves the questions list of that record, in its order. -/
theorem resolvePool_of_record {Q : Type} (db : Index Q) (lesson : String) (r : LessonRecord Q)
    (subject : Option String) (page pageSize count : Option Nat) (hne : lesson ≠ "")
    (hr : db.lookup lesson = some (Entry.record r)) :
    resolvePool db ⟨some lesson, subject, page, pageSize, count⟩
      = .ok (some (r.questions.map Item.question)) := by
  simp only [resolvePool, truthy, if_neg hne, dbGet, hr]

/-- The handler of `/mcqs` answers 400 for a lesson key that is no own key and no
name inherited from `Object.prototype`. -/
theorem mcqsHandler_of_missing {Q : Type} (db : Index Q) (rng : Rng) (lesson : String)
    (subject : Option String) (page pageSize count : Option Nat) (hne : lesson ≠ "")
    (hr : db.lookup lesson = none) (hp : lesson ∉ objectPrototypeNames) :
    mcqsHandler db rng ⟨some lesson, subject, page, pageSize, count⟩
      = .badRequest "Invalid lesson key" := by
  simp only [mcqsHandler, resolvePool, truthy, if_neg hne, dbGet, hr, if_neg hp]

/-! ## Facts about `loadMCQs` -/

theorem truthy_some_of_ne {s : String} (h : s ≠ "") : truthy (some s) = some s := by
  simp [truthy, h]

theorem leafKey_eq {Q : Type} (path : List String) (h : ∀ p ∈ path.getLast?, p ≠ "")
    (leafName : String) (content : Option (Payload Q)) :
    leafKey path.getLast? leafName
      = Leaf.key { path := path, leafName := leafName, content := content } := by
  unfold leafKey Leaf.key
  cases hp : path.getLast? with
  | none => rfl
  | some p =>
    have hne : p ≠ "" := h p (by rw [hp]; rfl)
    simp only [truthy_some_of_ne hne]

mutual
/-- On one entry, `walk` makes the assignments of the lesson files below it. -/
theorem visit_eq_foldl {Q : Type} (path : List String) (h : ∀ p ∈ path.getLast?, p ≠ "") :
    ∀ (n : Node Q) (db : Index Q), n.namesOk = true →
      visit path.getLast? n db
        = (leavesOfNode path n).foldl (fun db l => dbSet db l.key l.entry) db
  | .dir name children, db, hn => by
    simp only [Node.namesOk, Bool.and_eq_true, bne_iff_ne, ne_eq] at hn
    have hlast : (path ++ [name]).getLast? = some name := by simp
    have h' : ∀ p ∈ (path ++ [name]).getLast?, p ≠ "" := by
      intro p hp
      rw [hlast] at hp
      cases hp
      exact hn.1
    have ih := walk_eq_foldl (path ++ [name]) h' children db hn.2
    rw [hlast] at ih
    simp only [visit, leavesOfNode]
    exact ih
  | .file name content, db, _ => by
    simp only [visit, leavesOfNode]
    by_cases he : endsWith name ".json" = true
    · simp only [he, if_true, List.foldl_cons, List.foldl_nil, Leaf.entry]
      rw [leafKey_eq path h (basenameJson name) content]
    · simp only [he, Bool.false_eq_true, if_false, List.foldl_nil]
/-- On the entries of a group, `walk` makes the assignments of the lesson files
below them, in depth-first order. -/
theorem walk_eq_foldl {Q : Type} (path : List String) (h : ∀ p ∈ path.getLast?, p ≠ "") :
    ∀ (children : List (Node Q)) (db : Index Q), namesOkList children = true →
      walk path.getLast? children db
        = (leavesOf path children).foldl (fun db l => dbSet db l.key l.entry) db
  | [], db, _ => by simp only [walk, leavesOf, List.foldl_nil]
  | n :: rest, db, hn => by
    simp only [namesOkList, Bool.and_eq_true] at hn
    simp only [walk, leavesOf, List.foldl_append]
    rw [visit_eq_foldl path h n db hn.1]
    exact walk_eq_foldl path h rest _ hn.2
end

theorem loadMCQs_eq_foldl {Q : Type} (baseDir : List (Node Q))
    (h : namesOkList baseDir = true) :
    loadMCQs baseDir = (leavesOf [] baseDir).foldl (fun db l => dbSet db l.key l.entry) [] :=
  walk_eq_foldl [] (fun p hp => by cases hp) baseDir [] h

theorem insertIndexed_perm {Q : Type} (n : Nat) (key : String) (v : Entry Q) (db : Index Q) :
    (insertIndexed n key v db).Perm ((key, v) :: db) := by
  induction db with
  | nil => exact List.Perm.refl _
  | cons e rest ih =>
    unfold insertIndexed
    split
    · split
      · exact (List.Perm.cons e ih).trans (List.Perm.swap _ _ _)
      · exact List.Perm.refl _
    · exact List.Perm.refl _

theorem any_key_iff {Q : Type} (db : Index Q) (key : String) :
    db.any (fun e => e.1 == key) = true ↔ key ∈ db.map Prod.fst := by
  simp only [List.any_eq_true, beq_iff_eq, List.mem_map]

/-- The assignment `db["__proto__"] = v` leaves the own properties as they are. -/
theorem dbSet_proto {Q : Type} (db : Index Q) (v : Entry Q) : dbSet db "__proto__" v = db := by
  unfold dbSet
  rw [if_pos rfl]

/-- After `db[k] = v`, for a key `k` other than `__proto__`, the value under `k`
is `v` and the other properties are as before. -/
theorem mem_dbSet {Q : Type} (db : Index Q) (k : String) (v : Entry Q) (k' : String)
    (e : Entry Q) (hproto : k ≠ "__proto__") :
    (k', e) ∈ dbSet db k v ↔ (k' = k ∧ e = v) ∨ (k' ≠ k ∧ (k', e) ∈ db) := by
  unfold dbSet
  rw [if_neg hproto]
  by_cases hk : db.any (fun e => e.1 == k) = true
  · rw [if_pos hk]
    obtain ⟨x, hx, hxk⟩ := List.mem_map.mp ((any_key_iff db k).mp hk)
    simp only [List.mem_map]
    constructor
    · rintro ⟨y, hy, hye⟩
      by_cases hyk : y.1 = k
      · rw [if_pos hyk] at hye
        cases hye
        exact Or.inl ⟨rfl, rfl⟩
      · rw [if_neg hyk] at hye
        subst hye
        exact Or.inr ⟨hyk, hy⟩
    · rintro (⟨rfl, rfl⟩ | ⟨hne, hmem⟩)
      · exact ⟨x, hx, by rw [if_pos hxk]⟩
      · exact ⟨(k', e), hmem, by rw [if_neg hne]⟩
  · rw [if_neg hk]
    have hnot : k ∉ db.map Prod.fst := fun h => hk ((any_key_iff db k).mpr h)
    have hdb : (k', e) ∈ db → k' ≠ k := by
      intro hmem heq
      exact hnot (List.mem_map.mpr ⟨(k', e), hmem, heq⟩)
    have key : ∀ l : Index Q, l.Perm ((k, v) :: db) →
        ((k', e) ∈ l ↔ (k' = k ∧ e = v) ∨ (k' ≠ k ∧ (k', e) ∈ db)) := by
      intro l hl
      rw [hl.mem_iff, List.mem_cons]
      constructor
      · rintro (h | h)
        · cases h
          exact Or.inl ⟨rfl, rfl⟩
        · exact Or.inr ⟨hdb h, h⟩
      · rintro (⟨rfl, rfl⟩ | ⟨_, h⟩)
        · exact Or.inl rfl
        · exact Or.inr h
    split
    · exact key _ (insertIndexed_perm _ k v db)
    · exact key _ (List.perm_append_singleton _ _)

/-- The assignment `db[k] = v` keeps the keys of `db` pairwise distinct. -/
theorem dbSet_keys_nodup {Q : Type} (db : Index Q) (k : String) (v : Entry Q)
    (h : (db.map Prod.fst).Nodup) : ((dbSet db k v).map Prod.fst).Nodup := by
  by_cases hproto : k = "__proto__"
  · rw [hproto, dbSet_proto]
    exact h
  unfold dbSet
  rw [if_neg hproto]
  by_cases hk : db.any (fun e => e.1 == k) = true
  · rw [if_pos hk, List.map_map]
    have hf : (Prod.fst ∘ fun e : String × Entry Q => if e.1 = k then (k, v) else e)
        = Prod.fst := by
      funext x
      simp only [Function.comp_apply]
      by_cases hx : x.1 = k
      · rw [if_pos hx, hx]
      · rw [if_neg hx]
    rw [hf]
    exact h
  · rw [if_neg hk]
    have hnot : k ∉ db.map Prod.fst := fun hm => hk ((any_key_iff db k).mpr hm)
    have key : ∀ l : Index Q, l.Perm ((k, v) :: db) → (l.map Prod.fst).Nodup := by
      intro l hl
      rw [(hl.map Prod.fst).nodup_iff, List.map_cons, List.nodup_cons]
      exact ⟨hnot, h⟩
    split
    · exact key _ (insertIndexed_perm _ k v db)
    · exact key _ (List.perm_append_singleton _ _)

/-- The index built by a sequence of assignments, one for each lesson file: its
keys are pairwise distinct, none of them is `__proto__`, and the value under a key
is the value of the last file with that key. -/
theorem foldl_dbSet_spec {Q : Type} (ls : List (Leaf Q)) :
    ((ls.foldl (fun db l => dbSet db l.key l.entry) []).map Prod.fst).Nodup ∧
      ∀ (k : String) (e : Entry Q),
        (k, e) ∈ ls.foldl (fun db l => dbSet db l.key l.entry) [] ↔
          (k ≠ "__proto__" ∧
            (ls.reverse.find? (fun l => l.key == k)).map Leaf.entry = some e) := by
  induction ls using List.reverseRecOn with
  | nil => exact ⟨List.nodup_nil, fun k e => by simp⟩
  | append_singleton ls l ih =>
    obtain ⟨ih1, ih2⟩ := ih
    rw [List.foldl_append, List.foldl_cons, List.foldl_nil]
    refine ⟨dbSet_keys_nodup _ _ _ ih1, fun k e => ?_⟩
    rw [List.reverse_concat]
    by_cases hproto : l.key = "__proto__"
    · rw [hproto, dbSet_proto, ih2]
      constructor
      · rintro ⟨hk, h⟩
        refine ⟨hk, ?_⟩
        rw [List.find?_cons_of_neg _ (by rw [hproto]; simpa using Ne.symm hk)]
        exact h
      · rintro ⟨hk, h⟩
        refine ⟨hk, ?_⟩
        rw [List.find?_cons_of_neg _ (by rw [hproto]; simpa using Ne.symm hk)] at h
        exact h
    · rw [mem_dbSet _ _ _ _ _ hproto, ih2]
      by_cases hk : l.key = k
      · rw [List.find?_cons_of_pos _ (by simpa using hk)]
        simp only [Option.map_some', Option.some.injEq]
        constructor
        · rintro (⟨_, h⟩ | ⟨h, _⟩)
          · exact ⟨fun hp => hproto (hk.trans hp), h.symm⟩
          · exact absurd hk.symm h
        · rintro ⟨_, h⟩
          exact Or.inl ⟨hk.symm, h.symm⟩
      · rw [List.find?_cons_of_neg _ (by simpa using hk)]
        constructor
        · rintro (⟨h, _⟩ | ⟨_, h⟩)
          · exact absurd h.symm hk
          · exact h
        · intro h
          exact Or.inr ⟨fun h' => hk h'.symm, h⟩

/-- The index of a source tree whose directories have a name: its keys are
pairwise distinct, they are the keys of the lesson files other than `__proto__`,
and the value under a key is the one computed from the last lesson file with that
key in depth-first order. -/
theorem loadMCQs_entries {Q : Type} (tree : List (Node Q)) (h : namesOkList tree = true) :
    ((loadMCQs tree).map Prod.fst).Nodup ∧
      (∀ k : String, k ∈ (loadMCQs tree).map Prod.fst ↔
        (k ≠ "__proto__" ∧ ∃ l ∈ leavesOf [] tree, l.key = k)) ∧
      (∀ (k : String) (e : Entry Q),
        (k, e) ∈ loadMCQs tree ↔
          (k ≠ "__proto__" ∧
            ((leavesOf [] tree).reverse.find? (fun l => l.key == k)).map Leaf.entry
              = some e)) := by
  rw [loadMCQs_eq_foldl tree h]
  obtain ⟨h1, h2⟩ := foldl_dbSet_spec (leavesOf [] tree)
  refine ⟨h1, fun k => ?_, h2⟩
  constructor
  · intro hk
    obtain ⟨⟨k', e⟩, hmem, hke⟩ := List.mem_map.mp hk
    simp only at hke
    subst hke
    obtain ⟨hne, hf⟩ := (h2 k' e).mp hmem
    refine ⟨hne, ?_⟩
    cases hfind : (leavesOf [] tree).reverse.find? (fun l => l.key == k') with
    | none =>
      rw [hfind] at hf
      cases hf
    | some l =>
      have hsome : ((leavesOf [] tree).reverse.find? (fun l => l.key == k')).isSome = true := by
        rw [hfind]
        rfl
      rw [List.find?_isSome] at hsome
      obtain ⟨x, hx, hxk⟩ := hsome
      exact ⟨x, List.mem_reverse.mp hx, by simpa using hxk⟩
  · rintro ⟨hne, l, hl, rfl⟩
    have hsome : ((leavesOf [] tree).reverse.find? (fun x => x.key == l.key)).isSome = true := by
      rw [List.find?_isSome]
      exact ⟨l, List.mem_reverse.mpr hl, by simp⟩
    obtain ⟨x, hx⟩ := Option.isSome_iff_exists.mp hsome
    have hmem := (h2 l.key x.entry).mpr ⟨hne, by rw [hx]; rfl⟩
    exact List.mem_map.mpr ⟨(l.key, x.entry), hmem, rfl⟩

/-! ## Facts about `listLessons` -/

theorem numLe_refl (x : Option Nat) : numLe x x := by
  cases x with
  | none => trivial
  | some x => exact Nat.le_refl x

/-- The comparator is not positive exactly when the first row has the smaller
number, or the numbers agree and the keys are in order. -/
theorem compareLessons_le_iff (lc : String → String → Int) (a b : LessonRow) :
    compareLessons lc a b ≤ 0 ↔
      (numLe (finiteOrInfinity a._num) (finiteOrInfinity b._num) ∧
        (finiteOrInfinity a._num = finiteOrInfinity b._num → lc a.key b.key ≤ 0)) := by
  unfold compareLessons
  cases ha : finiteOrInfinity a._num with
  | none =>
    cases hb : finiteOrInfinity b._num with
    | none => simp [numLe]
    | some y => simp [numLe]
  | some x =>
    cases hb : finiteOrInfinity b._num with
    | none => simp [numLe]
    | some y =>
      simp only [numLe, Option.some.injEq]
      by_cases hxy : x = y
      · subst hxy
        simp
      · simp only [ne_eq, hxy, not_false_eq_true, if_true, false_imp_iff, and_true]
        omega

theorem compareLessons_total (lc : String → String → Int)
    (htotal : ∀ a b, lc a b ≤ 0 ∨ lc b a ≤ 0) (a b : LessonRow) :
    compareLessons lc a b ≤ 0 ∨ compareLessons lc b a ≤ 0 := by
  rw [compareLessons_le_iff, compareLessons_le_iff]
  cases ha : finiteOrInfinity a._num with
  | none =>
    cases hb : finiteOrInfinity b._num with
    | none => simpa [numLe] using htotal a.key b.key
    | some y => simp [numLe]
  | some x =>
    cases hb : finiteOrInfinity b._num with
    | none => simp [numLe]
    | some y =>
      simp only [numLe, Option.some.injEq]
      rcases Nat.lt_trichotomy x y with h | h | h
      · left
        exact ⟨by omega, fun e => by omega⟩
      · subst h
        rcases htotal a.key b.key with h1 | h1
        · exact Or.inl ⟨Nat.le_refl _, fun _ => h1⟩
        · exact Or.inr ⟨Nat.le_refl _, fun _ => h1⟩
      · right
        exact ⟨by omega, fun e => by omega⟩

theorem compareLessons_trans (lc : String → String → Int)
    (htrans : ∀ a b c, lc a b ≤ 0 → lc b c ≤ 0 → lc a c ≤ 0) (a b c : LessonRow)
    (hab : compareLessons lc a b ≤ 0) (hbc : compareLessons lc b c ≤ 0) :
    compareLessons lc a c ≤ 0 := by
  rw [compareLessons_le_iff] at hab hbc ⊢
  obtain ⟨h1, h2⟩ := hab
  obtain ⟨h3, h4⟩ := hbc
  cases ha : finiteOrInfinity a._num with
  | none =>
    cases hb : finiteOrInfinity b._num with
    | none =>
      cases hc : finiteOrInfinity c._num with
      | none =>
        rw [ha, hb] at h2
        rw [hb, hc] at h4
        exact ⟨trivial, fun _ => htrans _ _ _ (h2 rfl) (h4 rfl)⟩
      | some z =>
        rw [hb, hc] at h3
        exact absurd h3 (by simp [numLe])
    | some y =>
      rw [ha, hb] at h1
      exact absurd h1 (by simp [numLe])
  | some x =>
    cases hc : finiteOrInfinity c._num with
    | none => exact ⟨trivial, fun e => by simp at e⟩
    | some z =>
      cases hb : finiteOrInfinity b._num with
      | none =>
        rw [hb, hc] at h3
        exact absurd h3 (by simp [numLe])
      | some y =>
        rw [ha, hb] at h1 h2
        rw [hb, hc] at h3 h4
        simp only [numLe, Option.some.injEq] at h1 h2 h3 h4 ⊢
        refine ⟨by omega, fun e => ?_⟩
        have hxy : x = y := by omega
        have hyz : y = z := by omega
        exact htrans _ _ _ (h2 hxy) (h4 hyz)

/-- The rows that `listLessons` sorts carry the number of their key. -/
theorem lessonRow_num {Q : Type} (e : String × Entry Q) :
    (lessonRow e)._num = extractLessonNumber (lessonRow e).key := by
  unfold lessonRow
  cases e.2 <;> rfl

theorem listLessons_pairwise {Q : Type} (lc : String → String → Int) (db : Index Q)
    (subject : Option String) (htotal : ∀ a b, lc a b ≤ 0 ∨ lc b a ≤ 0)
    (htrans : ∀ a b c, lc a b ≤ 0 → lc b c ≤ 0 → lc a c ≤ 0) :
    (listLessons lc db subject).Pairwise (lessonOrder lc) := by
  haveI : IsTotal LessonRow (fun a b => compareLessons lc a b ≤ 0) :=
    ⟨compareLessons_total lc htotal⟩
  haveI : IsTrans LessonRow (fun a b => compareLessons lc a b ≤ 0) :=
    ⟨compareLessons_trans lc htrans⟩
  have hs := List.sorted_insertionSort (fun a b => compareLessons lc a b ≤ 0)
    ((db.filter (lessonFilter subject)).map lessonRow)
  unfold listLessons
  rw [List.pairwise_map]
  refine List.Pairwise.imp_of_mem ?_ hs
  intro a b ha hb hab
  have hnum : ∀ x, x ∈ List.insertionSort (fun a b => compareLessons lc a b ≤ 0)
      ((db.filter (lessonFilter subject)).map lessonRow) → x._num = extractLessonNumber x.key := by
    intro x hx
    rw [List.mem_insertionSort] at hx
    obtain ⟨e, _, rfl⟩ := List.mem_map.mp hx
    exact lessonRow_num e
  rw [compareLessons_le_iff, hnum a ha, hnum b hb] at hab
  exact hab

/-- The numbers `2^53` and `2^53 + 1` at the end of a key both give the double
`2^53`, so the comparison of keys decides the order of the two rows. -/
theorem listLessons_rounding (lc : String → String → Int)
    (h : ¬ lc "b9007199254740992" "a9007199254740993" ≤ 0) :
    (listLessons lc roundingDb none).map (fun l => l.key)
      = ["a9007199254740993", "b9007199254740992"] := by
  have hcmp :
      compareLessons lc (lessonRow (sampleLesson "b9007199254740992" 0 1 : String × Entry Nat))
        (lessonRow (sampleLesson "a9007199254740993" 10 1))
        = lc "b9007199254740992" "a9007199254740993" := rfl
  have e1 : (roundingDb.filter (lessonFilter none)).map lessonRow
      = [lessonRow (sampleLesson "b9007199254740992" 0 1),
         lessonRow (sampleLesson "a9007199254740993" 10 1)] := rfl
  unfold listLessons
  rw [e1]
  simp only [List.insertionSort, List.orderedInsert, hcmp, if_neg h]
  rfl

set_option maxRecDepth 100000 in
/-- The number of a key that ends in 310 digits `9` is `Infinity`, which the
listing does not tell from a missing number. -/
theorem lessonNumber_overflowKey :
    extractLessonNumber overflowKey = some (2 ^ 1024) ∧ lessonNumber overflowKey = none := by
  decide

set_option maxRecDepth 100000 in
/-- A key whose number is `Infinity` is listed after the keys with a finite
number, and the comparison of keys places it among the keys without number. -/
theorem listLessons_overflow (lc : String → String → Int)
    (h : ¬ lc overflowKey "intro" ≤ 0) :
    (listLessons lc overflowDb none).map (fun l => l.key)
      = ["lesson5", "intro", overflowKey] := by
  have h1 : compareLessons lc (lessonRow (sampleLesson overflowKey 0 1 : String × Entry Nat))
      (lessonRow (sampleLesson "intro" 10 1)) = lc overflowKey "intro" := rfl
  have h2 : compareLessons lc (lessonRow (sampleLesson overflowKey 0 1 : String × Entry Nat))
      (lessonRow (sampleLesson "lesson5" 20 1)) = 1 := rfl
  have h3 : compareLessons lc (lessonRow (sampleLesson "intro" 10 1 : String × Entry Nat))
      (lessonRow (sampleLesson "lesson5" 20 1)) = 1 := rfl
  have e1 : (overflowDb.filter (lessonFilter none)).map lessonRow
      = [lessonRow (sampleLesson overflowKey 0 1), lessonRow (sampleLesson "intro" 10 1),
         lessonRow (sampleLesson "lesson5" 20 1)] := rfl
  unfold listLessons
  rw [e1]
  simp only [List.insertionSort, List.orderedInsert, h1, h2, h3, if_neg h]
  rfl

/-- The comparison by code points is not positive exactly on keys in order. -/
theorem codePointCompare_le_iff (a b : String) : codePointCompare a b ≤ 0 ↔ a ≤ b := by
  unfold codePointCompare
  by_cases h1 : a < b
  · simp [h1, le_of_lt h1]
  · by_cases h2 : a = b
    · simp [h2]
    · have h3 : ¬ a ≤ b := fun h => h1 (lt_of_le_of_ne h h2)
      simp [h1, h2, h3]

/-- The unit in the last place of a number below `2^53` is `1`. -/
theorem ulp_of_lt (fuel n : Nat) (h : n < 2 ^ 53) : ulp fuel n = 1 := by
  cases fuel with
  | zero => rfl
  | succ fuel => simp only [ulp, if_pos h]

/-- The function `Number` is exact on a run of digits that denotes a number below
`2^53`. -/
theorem Number_of_lt (n : Nat) (h : n < 2 ^ 53) : Number n = n := by
  have h2 : n ≤ 2 ^ 1024 :=
    Nat.le_of_lt (Nat.lt_of_lt_of_le h (Nat.pow_le_pow_right (by decide) (by decide)))
  simp only [Number, ulp_of_lt n n h, Nat.div_one, Nat.mod_one, Nat.mul_one]
  simpa using h2

/-! ## Facts about pages -/

/-- The expression `Math.ceil(total / pageSize)` on natural numbers. -/
theorem ceilDiv_eq (n d : Nat) (hd : 1 ≤ d) :
    (n + d - 1) / d = ⌈(n : ℚ) / (d : ℚ)⌉₊ := by
  have hd0 : 0 < d := hd
  have hdq : (0 : ℚ) < (d : ℚ) := by exact_mod_cast hd0
  apply le_antisymm
  · have h1 : (n : ℚ) / (d : ℚ) ≤ (⌈(n : ℚ) / (d : ℚ)⌉₊ : ℚ) := Nat.le_ceil _
    rw [div_le_iff₀ hdq] at h1
    have h2 : n ≤ ⌈(n : ℚ) / (d : ℚ)⌉₊ * d := by exact_mod_cast h1
    have h3 : (n + d - 1) / d < ⌈(n : ℚ) / (d : ℚ)⌉₊ + 1 := by
      rw [Nat.div_lt_iff_lt_mul hd0, Nat.add_mul, Nat.one_mul]
      omega
    omega
  · rw [Nat.ceil_le, div_le_iff₀ hdq]
    have h1 := Nat.div_add_mod (n + d - 1) d
    have h2 := Nat.mod_lt (n + d - 1) hd0
    have h3 : n ≤ (n + d - 1) / d * d := by
      rw [Nat.mul_comm]
      omega
    exact_mod_cast h3

/-- A page is not empty exactly when it is one of the pages `1, ..., totalPages`. -/
theorem page_nonempty_iff {α : Type} (l : List α) (page pageSize : Nat) (hpage : 1 ≤ page)
    (hsize : 1 ≤ pageSize) :
    (l.drop ((page - 1) * pageSize)).take pageSize ≠ [] ↔
      1 ≤ page ∧ page ≤ (l.length + pageSize - 1) / pageSize := by
  have hs0 : 0 < pageSize := hsize
  rw [Ne, List.take_eq_nil_iff, List.drop_eq_nil_iff, Nat.le_div_iff_mul_le hs0]
  obtain ⟨m, rfl⟩ : ∃ m, page = m + 1 := ⟨page - 1, by omega⟩
  rw [Nat.add_sub_cancel, Nat.add_mul, Nat.one_mul]
  constructor
  · intro h
    refine ⟨hpage, ?_⟩
    by_contra hc
    exact h (Or.inr (by omega))
  · rintro ⟨_, h⟩ hc
    rcases hc with hc | hc
    · omega
    · omega

/-- The pages of a list, one after the other, give back the list. -/
theorem flatMap_pages {α : Type} (pageSize : Nat) (n : Nat) :
    ∀ l : List α, l.length ≤ n * pageSize →
      (List.range n).flatMap (fun k => (l.drop (k * pageSize)).take pageSize) = l := by
  induction n with
  | zero =>
    intro l hl
    have h0 : l = [] := List.length_eq_zero.mp (by omega)
    subst h0
    rfl
  | succ n ih =>
    intro l hl
    rw [List.range_succ_eq_map, List.flatMap_cons, List.flatMap_map]
    have hrest : (List.range n).flatMap
        (fun k => (l.drop ((k + 1) * pageSize)).take pageSize) = l.drop pageSize := by
      have h := ih (l.drop pageSize) (by
        rw [List.length_drop]
        rw [Nat.add_mul, Nat.one_mul] at hl
        omega)
      rw [← h]
      congr 1
      funext k
      rw [List.drop_drop, Nat.add_mul, Nat.one_mul, Nat.add_comm]
    simp only [Nat.zero_mul, List.drop_zero]
    show List.take pageSize l ++ (List.range n).flatMap
        (fun k => (l.drop ((k + 1) * pageSize)).take pageSize) = l
    rw [hrest]
    exact List.take_append_drop _ _

theorem truthy_truthy (s : Option String) : truthy (truthy s) = truthy s := by
  cases s with
  | none => rfl
  | some x =>
    by_cases h : x = ""
    · simp [truthy, h]
    · simp [truthy, h]

theorem listLessons_truthy {Q : Type} (lc : String → String → Int) (db : Index Q)
    (subject : Option String) : listLessons lc db (truthy subject) = listLessons lc db subject := by
  have hf : (lessonFilter (truthy subject) : String × Entry Q → Bool) = lessonFilter subject := by
    funext e
    simp only [lessonFilter, truthy_truthy]
  simp only [listLessons, hf]

theorem lessonRow_rest {Q : Type} (e : String × Entry Q) : (lessonRow e).rest = lessonInfo e := by
  unfold lessonRow lessonInfo LessonRow.rest
  cases h : e.2 <;> simp [Entry.questionList]

/-! ## Facts about the finals result -/

/-- No key starts with both `pharmacology-` and `pathology-`. -/
theorem subjects_exclusive (key : String) :
    ¬ (startsWith key ("pharmacology" ++ "-") = true ∧
        startsWith key ("pathology" ++ "-") = true) := by
  unfold startsWith
  have e1 : ("pharmacology" ++ "-").toList
      = ['p', 'h', 'a', 'r', 'm', 'a', 'c', 'o', 'l', 'o', 'g', 'y', '-'] := by decide
  have e2 : ("pathology" ++ "-").toList
      = ['p', 'a', 't', 'h', 'o', 'l', 'o', 'g', 'y', '-'] := by decide
  rw [e1, e2]
  rcases key.toList with _ | ⟨c0, _ | ⟨c1, rest⟩⟩
  · simp [List.isPrefixOf]
  · simp [List.isPrefixOf]
  · simp only [List.isPrefixOf, Bool.and_eq_true, beq_iff_eq]
    rintro ⟨⟨_, h1, _⟩, ⟨_, h2, _⟩⟩
    rw [← h1] at h2
    exact absurd h2 (by decide)

/-- The pool of a subject has no repetition when the pool of all lessons has
none. -/
theorem getSubjectPool_nodup {Q : Type} (db : Index Q) (subject : String)
    (H : (valuesQuestions db).Nodup) : (getSubjectPool db subject).Nodup := by
  unfold valuesQuestions at H
  unfold getSubjectPool
  rw [List.nodup_flatMap] at H ⊢
  exact ⟨fun x hx => H.1 x (List.mem_of_mem_filter hx), H.2.sublist (List.filter_sublist _)⟩

/-- The pools of pharmacology and of pathology share no element when the pool of
all lessons has no repetition. -/
theorem getSubjectPool_disjoint {Q : Type} (db : Index Q) (H : (valuesQuestions db).Nodup) :
    List.Disjoint (getSubjectPool db "pharmacology") (getSubjectPool db "pathology") := by
  unfold valuesQuestions at H
  rw [List.nodup_flatMap] at H
  rw [List.disjoint_left]
  intro x h1 h2
  unfold getSubjectPool at h1 h2
  obtain ⟨e1, he1, hx1⟩ := List.mem_flatMap.mp h1
  obtain ⟨e2, he2, hx2⟩ := List.mem_flatMap.mp h2
  rw [List.mem_filter] at he1 he2
  have hne : e1 ≠ e2 := by
    intro heq
    subst heq
    exact subjects_exclusive e1.1 ⟨he1.2, he2.2⟩
  have hsymm : Symmetric (Function.onFun List.Disjoint
      (fun e : String × Entry Q => e.2.flatQuestions)) := by
    intro a b hab
    exact List.Disjoint.symm hab
  have hd := H.2.forall hsymm he1.1 he2.1 hne
  exact (List.disjoint_left.mp hd) hx1 hx2

/-- The lesson record objects of an index with pairwise distinct keys are pairwise
distinct. -/
theorem valuesFlat_nodup {Q : Type} (db : Index Q) (hk : (db.map Prod.fst).Nodup) :
    (valuesFlat db).Nodup := by
  unfold valuesFlat
  rw [List.nodup_flatMap]
  constructor
  · intro x _
    cases x.2 <;> simp
  · have hp : db.Pairwise (fun a b => a.1 ≠ b.1) := List.pairwise_map.mp hk
    refine hp.imp ?_
    intro a b hab
    simp only [Function.onFun]
    rw [List.disjoint_left]
    intro x hx1 hx2
    cases ha : a.2 with
    | failed => simp [ha] at hx1
    | record ra =>
      cases hb : b.2 with
      | failed => simp [hb] at hx2
      | record rb =>
        simp only [ha, List.mem_singleton] at hx1
        simp only [hb, List.mem_singleton] at hx2
        rw [hx1] at hx2
        injection hx2 with hkey _
        exact hab hkey

/-- A result without repetition stays so when the filler is appended. -/
theorem nodup_append_filler {α : Type} [DecidableEq α] (result combined : List α) (n : Nat)
    (hr : result.Nodup) (hc : combined.Nodup) :
    (result ++ (combined.filter (fun q => !result.contains q)).take n).Nodup := by
  refine List.Nodup.append hr
    ((hc.sublist (List.filter_sublist _)).sublist (List.take_sublist _ _)) ?_
  rw [List.disjoint_left]
  intro a ha hfill
  have hmem := List.mem_of_mem_take hfill
  rw [List.mem_filter] at hmem
  have hcontains : result.contains a = true := List.elem_iff.mpr ha
  rw [hcontains] at hmem
  exact absurd hmem.2 (by decide)

/-- The loop of the finals handlers leaves the two slices. -/
theorem strata_finals {Q : Type} (db : Index Q) (rng : Rng) (count : Nat) :
    strata db count FINALS_RATIO rng []
      = (subjectSlice db rng "pharmacology" ⟨1, 2⟩ count
          ++ subjectSlice db (afterShuffle rng (getSubjectPool db "pharmacology"))
              "pathology" ⟨1, 2⟩ count,
        afterShuffle (afterShuffle rng (getSubjectPool db "pharmacology"))
          (getSubjectPool db "pathology")) := by
  simp only [strata, FINALS_RATIO, subjectSlice_eq, List.nil_append]

/-- The two slices together have no repetition when the pool of all lessons has
none. -/
theorem slices_nodup {Q : Type} (db : Index Q) (rng rng' : Rng) (count : Nat)
    (H : (valuesQuestions db).Nodup) :
    (subjectSlice db rng "pharmacology" ⟨1, 2⟩ count
      ++ subjectSlice db rng' "pathology" ⟨1, 2⟩ count).Nodup := by
  have hsl : ∀ (r : Rng) (subject : String),
      (subjectSlice db r subject ⟨1, 2⟩ count).Nodup := by
    intro r subject
    rw [subjectSlice_eq]
    exact ((shuffle_perm_pool r _).nodup_iff.mpr (getSubjectPool_nodup db subject H)).sublist
      (List.take_sublist _ _)
  have hmem : ∀ (r : Rng) (subject : String) (x : Item Q),
      x ∈ subjectSlice db r subject ⟨1, 2⟩ count → x ∈ getSubjectPool db subject := by
    intro r subject x hx
    rw [subjectSlice_eq] at hx
    exact (shuffle_perm_pool r _).subset (List.mem_of_mem_take hx)
  refine List.Nodup.append (hsl _ _) (hsl _ _) ?_
  rw [List.disjoint_left]
  intro x h1 h2
  exact (List.disjoint_left.mp (getSubjectPool_disjoint db H)) (hmem _ _ x h1) (hmem _ _ x h2)

/-- On an index whose pool of all lessons has no repetition and whose keys are
pairwise distinct, the finals result of `server.js` has no repetition. -/
theorem finalsHandler_nodup {Q : Type} [DecidableEq Q] (db : Index Q) (rng : Rng) (count : Nat)
    (hc : 1 ≤ count) (H : (valuesQuestions db).Nodup) (hk : (db.map Prod.fst).Nodup) :
    ∃ body, finalsHandler db rng (some count) = .ok body ∧ body.items.Nodup := by
  refine ⟨_, finalsWith_eq FINALS_RATIO db rng count hc, ?_⟩
  simp only [strata_finals]
  split
  · unfold finalsFiller
    exact nodup_append_filler _ _ _ (slices_nodup db _ _ count H)
      ((shuffle_perm_pool _ _).nodup_iff.mpr (valuesFlat_nodup db hk))
  · exact slices_nodup db _ _ count H

/-- On an index whose pool of all lessons has no repetition, the finals result of
`api.js` has no repetition. -/
theorem apiFinalsHandler_nodup {Q : Type} [DecidableEq Q] (db : Index Q) (rng : Rng)
    (count : Nat) (hc : 1 ≤ count) (H : (valuesQuestions db).Nodup) :
    ∃ body, apiFinalsHandler db rng (some count) = .ok body ∧ body.items.Nodup := by
  unfold apiFinalsHandler
  simp only [Option.getD_some, Nat.max_eq_right hc, strata_finals]
  refine ⟨_, rfl, ?_⟩
  simp only
  split
  · unfold apiFinalsFiller
    exact nodup_append_filler _ _ _ (slices_nodup db _ _ count H)
      ((shuffle_perm_pool _ _).nodup_iff.mpr H)
  · exact slices_nodup db _ _ count H

/-- On an index in which every file parsed and the questions are pairwise
distinct, the pool of all lessons has no repetition. -/
theorem valuesQuestions_nodup_of_parsed {Q : Type} (db : Index Q)
    (hparsed : ∀ e ∈ db, e.2 ≠ Entry.failed)
    (hq : (db.flatMap (fun e => e.2.questionList)).Nodup) : (valuesQuestions db).Nodup := by
  have heq : valuesQuestions db = (db.flatMap (fun e => e.2.questionList)).map Item.question := by
    unfold valuesQuestions
    rw [List.map_flatMap]
    induction db with
    | nil => rfl
    | cons e rest ih =>
      have he : e.2.flatQuestions = e.2.questionList.map Item.question := by
        cases hv : e.2 with
        | record r => rfl
        | failed => exact absurd hv (hparsed e (List.mem_cons_self _ _))
      rw [List.flatMap_cons, List.flatMap_cons, he,
        ih (fun x hx => hparsed x (List.mem_cons_of_mem _ hx))
          ((List.nodup_append.mp (by rw [List.flatMap_cons] at hq; exact hq)).2.1)]
  rw [heq]
  exact hq.map (fun a b h => by injection h)

/-! ## Facts about the delivery of the finals handler of `api.js` -/

/-- The handler of `api.js` answers with the two slices, completed by the filler
when they are fewer than `count`. -/
theorem apiFinalsHandler_eq {Q : Type} [DecidableEq Q] (db : Index Q) (rng : Rng) (count : Nat)
    (hc : 1 ≤ count) :
    apiFinalsHandler db rng (some count)
      = .ok
        { items :=
            if (strata db count FINALS_RATIO rng []).1.length < count then
              (strata db count FINALS_RATIO rng []).1
                ++ apiFinalsFiller db (strata db count FINALS_RATIO rng []).2 count
                    (strata db count FINALS_RATIO rng []).1
            else (strata db count FINALS_RATIO rng []).1
          requested := count
          delivered :=
            (if (strata db count FINALS_RATIO rng []).1.length < count then
              (strata db count FINALS_RATIO rng []).1
                ++ apiFinalsFiller db (strata db count FINALS_RATIO rng []).2 count
                    (strata db count FINALS_RATIO rng []).1
            else (strata db count FINALS_RATIO rng []).1).length
          ratio := FINALS_RATIO } := by
  unfold apiFinalsHandler
  simp only [Option.getD_some, Nat.max_eq_right hc]

/-- The elements of a list without repetition that are not in a part of it number
the difference of the lengths. -/
theorem filter_not_contains_length {α : Type} [DecidableEq α] (l r : List α) (hl : l.Nodup)
    (hr : r.Nodup) (hsub : ∀ x ∈ r, x ∈ l) :
    (l.filter (fun q => !r.contains q)).length = l.length - r.length := by
  have hperm : (l.filter (fun q => r.contains q)).Perm r := by
    rw [List.perm_ext_iff_of_nodup (hl.filter _) hr]
    intro a
    rw [List.mem_filter]
    constructor
    · rintro ⟨_, h⟩
      exact List.elem_iff.mp h
    · intro h
      exact ⟨hsub a h, List.elem_iff.mpr h⟩
  have hsum := List.length_eq_length_filter_add (l := l) (fun q => r.contains q)
  rw [hperm.length_eq] at hsum
  omega

/-- The pool of all lessons of an index in which every file parsed holds the
questions of the index. -/
theorem valuesQuestions_of_parsed {Q : Type} (db : Index Q)
    (hparsed : ∀ e ∈ db, e.2 ≠ Entry.failed) :
    valuesQuestions db = (db.flatMap (fun e => e.2.questionList)).map Item.question := by
  unfold valuesQuestions
  induction db with
  | nil => rfl
  | cons e rest ih =>
    have he : e.2.flatQuestions = e.2.questionList.map Item.question := by
      cases hv : e.2 with
      | record r => rfl
      | failed => exact absurd hv (hparsed e (List.mem_cons_self _ _))
    rw [List.flatMap_cons, List.flatMap_cons, List.map_append, he,
      ih (fun x hx => hparsed x (List.mem_cons_of_mem _ hx))]

/-- The pool of a subject is part of the pool of all lessons. -/
theorem getSubjectPool_subset {Q : Type} (db : Index Q) (subject : String) (x : Item Q)
    (hx : x ∈ getSubjectPool db subject) : x ∈ valuesQuestions db := by
  unfold getSubjectPool at hx
  obtain ⟨e, he, hxe⟩ := List.mem_flatMap.mp hx
  exact List.mem_flatMap.mpr ⟨e, List.mem_of_mem_filter he, hxe⟩

theorem subjectSlice_subset {Q : Type} (db : Index Q) (rng : Rng) (subject : String)
    (ratio : Ratio) (count : Nat) (x : Item Q)
    (hx : x ∈ subjectSlice db rng subject ratio count) : x ∈ valuesQuestions db := by
  rw [subjectSlice_eq] at hx
  exact getSubjectPool_subset db subject x
    ((shuffle_perm_pool rng _).subset (List.mem_of_mem_take hx))

/-- A result without repetition drawn from a pool without repetition, completed by
the filler, has `min(count, |pool|)` elements, all of the pool and none twice. -/
theorem completed_length {α : Type} [DecidableEq α] (result pool combined : List α)
    (count : Nat) (hr : result.Nodup) (hp : pool.Nodup) (hsub : ∀ x ∈ result, x ∈ pool)
    (hperm : combined.Perm pool) (hle : result.length ≤ count) :
    (if result.length < count then
        result ++ (combined.filter (fun q => !result.contains q)).take (count - result.length)
      else result).length = min count pool.length ∧
    (if result.length < count then
        result ++ (combined.filter (fun q => !result.contains q)).take (count - result.length)
      else result).Nodup ∧
    ∀ x ∈ (if result.length < count then
        result ++ (combined.filter (fun q => !result.contains q)).take (count - result.length)
      else result), x ∈ pool := by
  have hcn : combined.Nodup := hperm.nodup_iff.mpr hp
  have hsubc : ∀ x ∈ result, x ∈ combined := fun x hx => hperm.mem_iff.mpr (hsub x hx)
  have hlen := filter_not_contains_length combined result hcn hr hsubc
  have hrl : result.length ≤ pool.length := by
    rw [← hperm.length_eq]
    exact (hr.subperm (fun x hx => hsubc x hx)).length_le
  rw [hperm.length_eq] at hlen
  split
  · refine ⟨?_, nodup_append_filler result combined _ hr hcn, ?_⟩
    · rw [List.length_append, List.length_take, hlen]
      omega
    · intro x hx
      rcases List.mem_append.mp hx with h | h
      · exact hsub x h
      · exact hperm.mem_iff.mp (List.mem_of_mem_filter (List.mem_of_mem_take h))
  · exact ⟨by omega, hr, hsub⟩

/-! ## Where the two deployments agree -/

/-- For the subjects `pharmacology`, `pathology` and `both` the handlers of
`/mcqs/random` of the two files answer alike. -/
theorem randomHandler_eq_api {Q : Type} (db : Index Q) (rng : Rng) (subject : String)
    (count : Option Nat)
    (hs : subject = "pharmacology" ∨ subject = "pathology" ∨ subject = "both") :
    randomHandler db rng (some subject) count = apiRandomHandler db rng (some subject) count := by
  have hpool : randomPool db (some subject) = apiRandomPool db (some subject) := by
    unfold randomPool apiRandomPool
    rcases hs with h | h | h <;> subst h <;> simp
  unfold randomHandler apiRandomHandler
  rw [hpool]

/-- The finals handlers of the two files answer alike when the two slices number
`count`, so that no filler is drawn. -/
theorem finalsHandler_eq_api {Q : Type} [DecidableEq Q] (db : Index Q) (rng : Rng) (count : Nat)
    (hc : 1 ≤ count) (hfull : ¬ (strata db count FINALS_RATIO rng []).1.length < count) :
    finalsHandler db rng (some count) = apiFinalsHandler db rng (some count) := by
  unfold finalsHandler
  rw [finalsWith_eq FINALS_RATIO db rng count hc, apiFinalsHandler_eq db rng count hc]
  simp only [if_neg hfull]

/-! ## Facts about the regular expression -/

theorem matchDigits_none (s : List Char) (n : Nat) (h : n < s.length) :
    matchDigits s n = none := by
  induction n with
  | zero => rfl
  | succ n ih =>
    unfold matchDigits
    have hd : s.drop (n + 1) ≠ [] := by
      intro hnil
      rw [List.drop_eq_nil_iff] at hnil
      omega
    rw [if_neg hd]
    exact ih (by omega)

theorem matchDigits_length (s : List Char) (hne : s ≠ []) : matchDigits s s.length = some s := by
  cases s with
  | nil => exact absurd rfl hne
  | cons c r =>
    show (if (c :: r).drop (r.length + 1) = [] then some ((c :: r).take (r.length + 1))
      else matchDigits (c :: r) r.length) = some (c :: r)
    rw [if_pos (List.drop_eq_nil_iff.mpr (by simp)), List.take_of_length_le (by simp)]

/-- The end `(\d+)$` matches at the head of `s` only when `s` is a run of digits,
and the group is then all of `s`. -/
theorem matchDigitsEnd_some (s ds : List Char) (h : matchDigitsEnd s = some ds) :
    ds = s ∧ s ≠ [] ∧ ∀ c ∈ s, c.isDigit = true := by
  unfold matchDigitsEnd at h
  have hle : (s.takeWhile Char.isDigit).length ≤ s.length :=
    (List.takeWhile_sublist _).length_le
  by_cases hlt : (s.takeWhile Char.isDigit).length < s.length
  · rw [matchDigits_none s _ hlt] at h
    cases h
  · have hlen : (s.takeWhile Char.isDigit).length = s.length := by omega
    have hall : ∀ c ∈ s, c.isDigit = true :=
      List.takeWhile_eq_self_iff.mp ((List.takeWhile_prefix _).eq_of_length hlen)
    rw [hlen] at h
    have hne : s ≠ [] := by
      intro hnil
      rw [hnil] at h
      cases h
    rw [matchDigits_length s hne] at h
    exact ⟨(Option.some.inj h).symm, hne, hall⟩

theorem matchDigitsEnd_of_digits (s : List Char) (hne : s ≠ [])
    (hall : ∀ c ∈ s, c.isDigit = true) : matchDigitsEnd s = some s := by
  unfold matchDigitsEnd
  rw [List.takeWhile_eq_self_iff.mpr hall]
  exact matchDigits_length s hne

/-- The letters of a marker without digit match a run of characters that are no
digits. -/
theorem matchLiteral_some (ps : List Char)
    (hps : ∀ p ∈ ps, p.isDigit = false ∧ p.toUpper.isDigit = false) :
    ∀ (s rest : List Char), matchLiteral ps s = some rest →
      ∃ pre, s = pre ++ rest ∧ pre.length = ps.length ∧ ∀ c ∈ pre, c.isDigit = false := by
  induction ps with
  | nil =>
    intro s rest h
    simp only [matchLiteral, Option.some.injEq] at h
    exact ⟨[], by simp [h], rfl, by simp⟩
  | cons p ps ih =>
    intro s rest h
    cases s with
    | nil => simp [matchLiteral] at h
    | cons c s =>
      simp only [matchLiteral] at h
      by_cases hm : matchesIgnoreCase p c = true
      · rw [if_pos hm] at h
        obtain ⟨pre, hs, hlen, hpre⟩ :=
          ih (fun x hx => hps x (List.mem_cons_of_mem _ hx)) s rest h
        have hc : c.isDigit = false := by
          have hp := hps p (List.mem_cons_self _ _)
          simp only [matchesIgnoreCase, Bool.or_eq_true, beq_iff_eq] at hm
          rcases hm with hm | hm
          · rw [hm]
            exact hp.1
          · rw [hm]
            exact hp.2
        refine ⟨c :: pre, by rw [hs]; rfl, by simp [hlen], ?_⟩
        intro x hx
        rcases List.mem_cons.mp hx with hx | hx
        · rw [hx]
          exact hc
        · exact hpre x hx
      · rw [if_neg hm] at h
        cases h

theorem endsWithoutDigit_of_forall (pre : List Char) (h : ∀ c ∈ pre, c.isDigit = false) :
    EndsWithoutDigit pre := by
  rcases List.eq_nil_or_concat pre with hnil | ⟨pre', c, hc⟩
  · exact Or.inl hnil
  · rw [List.concat_eq_append] at hc
    refine Or.inr ⟨pre', c, hc, h c ?_⟩
    rw [hc]
    simp

theorem endsWithoutDigit_append (a b : List Char) (hb : b ≠ [])
    (h : EndsWithoutDigit b) : EndsWithoutDigit (a ++ b) := by
  rcases h with h | ⟨pre', c, hc, hd⟩
  · exact absurd h hb
  · exact Or.inr ⟨a ++ pre', c, by rw [hc, List.append_assoc], hd⟩

/-- A match of the pattern at the head of `s` leaves a run of digits that ends `s`
and that no digit precedes. -/
theorem matchHere_some (s ds : List Char) (h : matchHere s = some ds) :
    ∃ pre, s = pre ++ ds ∧ ds ≠ [] ∧ (∀ c ∈ ds, c.isDigit = true) ∧ EndsWithoutDigit pre := by
  have hdirect : ∀ t : List Char, matchDigitsEnd t = some ds →
      ds = t ∧ ds ≠ [] ∧ (∀ c ∈ ds, c.isDigit = true) := by
    intro t ht
    obtain ⟨h1, h2, h3⟩ := matchDigitsEnd_some t ds ht
    subst h1
    exact ⟨rfl, h2, h3⟩
  have hfall : matchDigitsEnd s = some ds →
      ∃ pre, s = pre ++ ds ∧ ds ≠ [] ∧ (∀ c ∈ ds, c.isDigit = true) ∧ EndsWithoutDigit pre := by
    intro ht
    obtain ⟨h1, h2, h3⟩ := hdirect s ht
    exact ⟨[], by rw [h1]; rfl, h2, h3, Or.inl rfl⟩
  unfold matchHere at h
  cases hl : matchLiteral "lesson".toList s with
  | none =>
    simp only [hl] at h
    exact hfall h
  | some rest =>
    simp only [hl] at h
    obtain ⟨pre, hs, hlen, hpre⟩ := matchLiteral_some "lesson".toList (by decide) s rest hl
    have hpne : pre ≠ [] := by
      intro hnil
      rw [hnil] at hlen
      exact absurd hlen (by decide)
    cases hsep : matchSeparator rest with
    | none =>
      simp only [hsep] at h
      exact hfall h
    | some x =>
      simp only [hsep, Option.some.injEq] at h
      subst h
      unfold matchSeparator at hsep
      cases hr : rest with
      | nil =>
        rw [hr] at hsep
        obtain ⟨h1, h2, _⟩ := hdirect [] hsep
        exact absurd h1 h2
      | cons c rest' =>
        rw [hr] at hsep
        simp only at hsep
        by_cases hc : c = '-' ∨ c = '_'
        · rw [if_pos hc] at hsep
          cases hd : matchDigitsEnd rest' with
          | some y =>
            rw [hd] at hsep
            cases hsep
            obtain ⟨h1, h2, h3⟩ := hdirect rest' hd
            have hcd : c.isDigit = false := by
              rcases hc with hc | hc <;> rw [hc] <;> decide
            refine ⟨pre ++ [c], ?_, h2, h3, Or.inr ⟨pre, c, rfl, hcd⟩⟩
            rw [hs, hr, h1]
            simp
          | none =>
            rw [hd] at hsep
            obtain ⟨h1, h2, h3⟩ := hdirect (c :: rest') hsep
            refine ⟨pre, ?_, h2, h3, endsWithoutDigit_of_forall pre hpre⟩
            rw [hs, hr, h1]
        · rw [if_neg hc] at hsep
          obtain ⟨h1, h2, h3⟩ := hdirect (c :: rest') hsep
          refine ⟨pre, ?_, h2, h3, endsWithoutDigit_of_forall pre hpre⟩
          rw [hs, hr, h1]

/-- The pattern matches at the head of a run of digits. -/
theorem matchHere_of_digits (s : List Char) (hne : s ≠ [])
    (hall : ∀ c ∈ s, c.isDigit = true) : matchHere s ≠ none := by
  unfold matchHere
  cases hl : matchLiteral "lesson".toList s with
  | none => simp [matchDigitsEnd_of_digits s hne hall]
  | some rest =>
    cases hsep : matchSeparator rest with
    | none => simp [hsep, matchDigitsEnd_of_digits s hne hall]
    | some x => simp [hsep]

/-- The run of digits that ends `pre ++ ds` is `ds` when `ds` is a run of digits
that no digit precedes. -/
theorem trailing_run_eq (pre ds : List Char) (hds : ∀ c ∈ ds, c.isDigit = true)
    (hpre : EndsWithoutDigit pre) :
    ((pre ++ ds).reverse.takeWhile Char.isDigit).reverse = ds := by
  rw [List.reverse_append,
    List.takeWhile_append_of_pos (fun a ha => hds a (List.mem_reverse.mp ha))]
  rcases hpre with h | ⟨pre', c, hc, hd⟩
  · rw [h]
    simp
  · rw [hc, List.reverse_append]
    simp [List.takeWhile_cons, hd]

/-- The run of digits that ends `c :: r` is the one that ends `r`, unless
`c :: r` is a run of digits. -/
theorem trailing_run_cons (c : Char) (r : List Char)
    (h : ¬ ∀ x ∈ c :: r, x.isDigit = true) :
    ((c :: r).reverse.takeWhile Char.isDigit).reverse
      = (r.reverse.takeWhile Char.isDigit).reverse := by
  rw [List.reverse_cons, List.takeWhile_append]
  by_cases hr : (r.reverse.takeWhile Char.isDigit).length = r.reverse.length
  · rw [if_pos hr]
    have hall : ∀ x ∈ r.reverse, x.isDigit = true :=
      List.takeWhile_eq_self_iff.mp ((List.takeWhile_prefix _).eq_of_length hr)
    have hc : c.isDigit = false := by
      cases hcd : c.isDigit with
      | false => rfl
      | true =>
        exfalso
        apply h
        intro x hx
        rcases List.mem_cons.mp hx with hx | hx
        · rw [hx]
          exact hcd
        · exact hall x (List.mem_reverse.mpr hx)
    rw [List.takeWhile_eq_self_iff.mpr hall]
    simp [List.takeWhile_cons, hc]
  · rw [if_neg hr]

/-- The search finds the run of digits that ends the key, when there is one. -/
theorem matchFrom_eq (s : List Char) :
    matchFrom s
      = match (s.reverse.takeWhile Char.isDigit).reverse with
        | [] => none
        | ds => some ds := by
  have hsome : ∀ (t ds : List Char), matchHere t = some ds →
      (match (t.reverse.takeWhile Char.isDigit).reverse with
        | [] => none
        | x => some x) = some ds := by
    intro t ds ht
    obtain ⟨pre, hs, hne, hall, hpre⟩ := matchHere_some t ds ht
    rw [hs, trailing_run_eq pre ds hall hpre]
    cases ds with
    | nil => exact absurd rfl hne
    | cons d ds' => rfl
  induction s with
  | nil => rfl
  | cons c r ih =>
    unfold matchFrom
    cases hh : matchHere (c :: r) with
    | some ds =>
      exact (hsome (c :: r) ds hh).symm
    | none =>
      simp only
      have hnot : ¬ ∀ x ∈ c :: r, x.isDigit = true := by
        intro hall
        exact matchHere_of_digits (c :: r) (List.cons_ne_nil _ _) hall hh
      rw [trailing_run_cons c r hnot]
      exact ih

/-- The function `extractLessonNumber` is the one read off the regular
expression. -/
theorem extractLessonNumber_eq_ofMatch (key : String) :
    extractLessonNumber key = extractLessonNumberOfMatch key := by
  unfold extractLessonNumber extractLessonNumberOfMatch trailingDigits
  rw [matchFrom_eq]
  cases (key.toList.reverse.takeWhile Char.isDigit).reverse with
  | nil => rfl
  | cons d ds => rfl

/-- The run of digits that ends a list of characters: it is a suffix made of
digits, no suffix made of digits is longer, and it is empty exactly when the list
does not end in a digit. -/
theorem trailing_run_spec (s : List Char) :
    (∃ pre, s = pre ++ (s.reverse.takeWhile Char.isDigit).reverse) ∧
      (∀ c ∈ (s.reverse.takeWhile Char.isDigit).reverse, c.isDigit = true) ∧
      (∀ pre' ds' : List Char, s = pre' ++ ds' → (∀ c ∈ ds', c.isDigit = true) →
        ds'.length ≤ ((s.reverse.takeWhile Char.isDigit).reverse).length) ∧
      ((s.reverse.takeWhile Char.isDigit).reverse = [] ↔
        ¬ ∃ c, s.getLast? = some c ∧ c.isDigit = true) := by
  refine ⟨⟨(s.reverse.dropWhile Char.isDigit).reverse, ?_⟩, ?_, ?_, ?_⟩
  · rw [← List.reverse_append, List.takeWhile_append_dropWhile, List.reverse_reverse]
  · intro c hc
    exact List.mem_takeWhile_imp (List.mem_reverse.mp hc)
  · intro pre' ds' hs hds
    rw [List.length_reverse, hs, List.reverse_append,
      List.takeWhile_append_of_pos (fun a ha => hds a (List.mem_reverse.mp ha)),
      List.length_append, List.length_reverse]
    omega
  · rw [List.reverse_eq_nil_iff, ← List.head?_eq_none_iff, List.head?_takeWhile,
      List.head?_reverse]
    cases hl : s.getLast? with
    | none => simp
    | some c =>
      cases hc : c.isDigit with
      | true => simp [Option.filter, hc]
      | false => simp [Option.filter, hc]

/-! ## The claims -/

/-- C1: for every pool and every sequence of draws `j_i` with `0 ≤ j_i ≤ i`, whether
given as a draw sequence or drawn from the results of `Math.random()`, `shuffle`
returns a list of the length of the pool that is a permutation of the pool: the
multiset of its elements is the multiset of the elements of the pool. -/
theorem shuffle_permutation {α : Type} (pool : List α) :
    (∀ d : DrawSeq pool.length,
      (shuffleWith d.toFun pool).length = pool.length ∧ (shuffleWith d.toFun pool).Perm pool ∧
        (↑(shuffleWith d.toFun pool) : Multiset α) = ↑pool) ∧
    (∀ rng : Rng,
      (∀ i, draws rng pool.length i ≤ i) ∧
      (shuffle rng pool).length = pool.length ∧ (shuffle rng pool).Perm pool ∧
        (↑(shuffle rng pool) : Multiset α) = ↑pool) :=
  ⟨fun d => ⟨(shuffleWith_perm d.toFun pool).length_eq, shuffleWith_perm d.toFun pool,
      Quotient.sound (shuffleWith_perm d.toFun pool)⟩,
    fun rng => ⟨fun i => draws_le rng pool.length i, shuffle_length rng pool,
      shuffle_perm_pool rng pool, Quotient.sound (shuffle_perm_pool rng pool)⟩⟩

/-- C2: for a pool of `n` pairwise distinct elements, the map that sends a draw
sequence `(j_{n-1}, ..., j_1)`, `j_i` in `[0, i]`, to the output of `shuffle` is a
bijection onto the permutations of the pool; there are `n!` draw sequences, each
drawn from some results of `Math.random()` and each run of `shuffle` using one; so
every permutation is the output for exactly one of the `n!` sequences, which is
the fraction `1 / n!` of them. -/
theorem shuffle_bijective {α : Type} [DecidableEq α] (pool : List α) (hnd : pool.Nodup) :
    Set.BijOn (fun d : DrawSeq pool.length => shuffleWith d.toFun pool) Set.univ
        {l | l.Perm pool} ∧
      Fintype.card (DrawSeq pool.length) = pool.length.factorial ∧
      (∀ d : DrawSeq pool.length, ∃ rng : Rng, shuffle rng pool = shuffleWith d.toFun pool) ∧
      (∀ rng : Rng, ∃ d : DrawSeq pool.length, shuffle rng pool = shuffleWith d.toFun pool) ∧
      ∀ l : List α, l.Perm pool →
        (Finset.univ.filter
            (fun d : DrawSeq pool.length => shuffleWith d.toFun pool = l)).card = 1 ∧
        (((Finset.univ.filter
            (fun d : DrawSeq pool.length => shuffleWith d.toFun pool = l)).card : ℚ)
          / (Fintype.card (DrawSeq pool.length) : ℚ) = 1 / (pool.length.factorial : ℚ)) := by
  have hinj := shuffleWith_injective pool hnd
  have hone : ∀ l : List α, l.Perm pool →
      (Finset.univ.filter
        (fun d : DrawSeq pool.length => shuffleWith d.toFun pool = l)).card = 1 := by
    intro l hl
    obtain ⟨d, hd⟩ := shuffleWith_surjective pool hnd l hl
    rw [Finset.card_eq_one]
    refine ⟨d, ?_⟩
    ext x
    simp only [Finset.mem_filter, Finset.mem_univ, true_and, Finset.mem_singleton]
    constructor
    · intro hx
      exact hinj (hx.trans hd.symm)
    · intro hx
      rw [hx]
      exact hd
  refine ⟨⟨fun d _ => shuffleWith_perm d.toFun pool, fun a _ b _ h => hinj h, ?_⟩,
    card_drawSeq pool.length, shuffleWith_eq_shuffle pool,
    fun rng => shuffle_eq_shuffleWith rng pool, ?_⟩
  · intro l hl
    obtain ⟨d, hd⟩ := shuffleWith_surjective pool hnd l hl
    exact ⟨d, Set.mem_univ d, hd⟩
  · intro l hl
    refine ⟨hone l hl, ?_⟩
    rw [hone l hl, card_drawSeq]
    simp

/-- A pool of three distinct elements: its six draw sequences give its six
permutations. -/
theorem shuffle_bijective_witness :
    ([1, 2, 3] : List Nat).Nodup ∧
      Set.BijOn (fun d : DrawSeq 3 => shuffleWith d.toFun [1, 2, 3]) Set.univ
        {l | l.Perm [1, 2, 3]} ∧
      Fintype.card (DrawSeq 3) = 6 :=
  ⟨by decide, (shuffle_bijective [1, 2, 3] (by decide)).1,
    (shuffle_bijective [1, 2, 3] (by decide)).2.1⟩

/-- C3: when the handler of `/mcqs` resolved a pool `P`, then for every
`page ≥ 1`, every `pageSize ≥ 1` and every random source it answers 200 with
exactly `min(pageSize, max(0, |P| - (page-1)*pageSize))` items; a page beyond the
last one gives the empty list of items, still with status 200. -/
theorem mcqs_page_length {Q : Type} (db : Index Q) (rng : Rng) (lesson subject : Option String)
    (count : Option Nat) (page pageSize : Nat) (P : List (Item Q))
    (hpage : 1 ≤ page) (hsize : 1 ≤ pageSize)
    (hP : resolvePool db ⟨lesson, subject, some page, some pageSize, count⟩ = .ok (some P)) :
    ∃ body, mcqsHandler db rng ⟨lesson, subject, some page, some pageSize, count⟩ = .ok body ∧
      (body.items.length : Int)
        = min (pageSize : Int) (max 0 ((P.length : Int) - ((page : Int) - 1) * pageSize)) ∧
      (P.length ≤ (page - 1) * pageSize → body.items = []) := by
  refine ⟨takePage rng P page pageSize, ?_, ?_, ?_⟩
  · unfold mcqsHandler
    rw [hP]
    simp only [McqsQuery.pageNumber, McqsQuery.effectivePageSize, Option.getD_some,
      Nat.max_eq_right hpage, Nat.max_eq_right hsize]
  · simp only [takePage, List.length_take, List.length_drop, shuffle_length]
    have e : ((page : Int) - 1) * pageSize = (((page - 1) * pageSize : Nat) : Int) := by
      rw [Nat.cast_mul, Nat.cast_sub hpage]
      simp
    rw [e]
    omega
  · intro h
    simp only [takePage]
    rw [List.drop_of_length_le (by rw [shuffle_length]; exact h)]
    exact List.take_nil

/-- Page 2 of size 2 of a lesson of three questions has one item. -/
theorem mcqs_page_length_witness :
    (1 ≤ 2 ∧ 1 ≤ 2 ∧
      resolvePool sampleDb ⟨some "pharmacology-lesson1", none, some 2, some 2, none⟩
        = .ok (some [.question 0, .question 1, .question 2])) ∧
    ∃ body, mcqsHandler sampleDb zeroRng ⟨some "pharmacology-lesson1", none, some 2, some 2, none⟩
        = .ok body ∧
      (body.items.length : Int)
        = min ((2 : Nat) : Int) (max 0 ((([.question 0, .question 1, .question 2] :
            List (Item Nat)).length : Int) - (((2 : Nat) : Int) - 1) * (2 : Nat))) ∧
      (([.question 0, .question 1, .question 2] : List (Item Nat)).length ≤ (2 - 1) * 2 →
        body.items = []) :=
  ⟨⟨by decide, by decide, by decide⟩,
    mcqs_page_length sampleDb zeroRng (some "pharmacology-lesson1") none none 2 2
      [.question 0, .question 1, .question 2] (by decide) (by decide) (by decide)⟩

/-- C4: for every non-empty pool and every `count ≥ 1` the handler of
`/mcqs/random` answers with the first `min(count, |pool|)` elements of a shuffle
of the pool as items, `total = |pool|`, `requested = count` and
`delivered = |items| = min(count, |pool|)`; a pool of 40 questions with
`count = 1000000` gives `delivered = 40` and `requested = 1000000`. -/
theorem random_take {Q : Type} (db : Index Q) (rng : Rng) (subject : Option String)
    (count : Nat) (hc : 1 ≤ count) (hne : randomPool db subject ≠ []) :
    ∃ body, randomHandler db rng subject (some count) = .ok body ∧
      body.items
        = (shuffle rng (randomPool db subject)).take (min count (randomPool db subject).length) ∧
      body.total = (randomPool db subject).length ∧
      body.requested = count ∧
      body.delivered = body.items.length ∧
      body.delivered = min count (randomPool db subject).length ∧
      ((randomPool db subject).length = 40 → count = 1000000 →
        body.delivered = 40 ∧ body.requested = 1000000) := by
  have hlen : ¬ (randomPool db subject).length = 0 := by
    intro h
    exact hne (List.length_eq_zero.mp h)
  have hd : ((shuffle rng (randomPool db subject)).take
      (min count (shuffle rng (randomPool db subject)).length)).length
        = min count (randomPool db subject).length := by
    rw [List.length_take, shuffle_length]
    omega
  have hb : randomHandler db rng subject (some count)
      = .ok
        { items := (shuffle rng (randomPool db subject)).take
            (min count (shuffle rng (randomPool db subject)).length)
          total := (randomPool db subject).length
          requested := count
          delivered := ((shuffle rng (randomPool db subject)).take
            (min count (shuffle rng (randomPool db subject)).length)).length } := by
    unfold randomHandler
    simp only [Option.getD_some, Nat.max_eq_right hc, if_neg hlen]
  refine ⟨_, hb, ?_, rfl, rfl, rfl, hd, ?_⟩
  · simp only [shuffle_length]
  · intro h40 hcount
    refine ⟨?_, hcount⟩
    show ((shuffle rng (randomPool db subject)).take
      (min count (shuffle rng (randomPool db subject)).length)).length = 40
    rw [hd, h40, hcount]
    rfl

/-- The pool of both subjects of an index of 40 questions, asked for a million. -/
theorem random_take_witness :
    (1 ≤ 1000000 ∧ randomPool sampleDb40 (some "both") ≠ []) ∧
    (randomPool sampleDb40 (some "both")).length = 40 ∧
    ∃ body, randomHandler sampleDb40 zeroRng (some "both") (some 1000000) = .ok body ∧
      body.delivered = 40 ∧ body.requested = 1000000 := by
  have h40 : (randomPool sampleDb40 (some "both")).length = 40 := by decide
  have hne : randomPool sampleDb40 (some "both") ≠ [] := by
    intro h
    rw [h] at h40
    exact absurd h40 (by decide)
  obtain ⟨body, hb, _, _, _, _, _, hex⟩ :=
    random_take sampleDb40 zeroRng (some "both") 1000000 (by decide) hne
  exact ⟨⟨by decide, hne⟩, h40, body, hb, hex h40 rfl⟩

/-- C5: the handler of `/mcqs` at two lesson keys.  The string `constructor` is no
key of the empty index, yet `db[lesson]` is the inherited property, which is
truthy, and the handler throws instead of answering 400.  The key of a file that
failed to parse is a key of the index, yet its value `[]` has no `questions`, and
the handler throws instead of serving the empty list. -/
theorem mcqs_lesson_throws :
    dbGet ([] : Index Nat) "constructor" = .inherited ∧
      mcqsHandler ([] : Index Nat) zeroRng ⟨some "constructor", none, none, none, none⟩
        = .typeError ∧
      dbGet failedLeafDb "pharmacology-lesson1" = .own .failed ∧
      mcqsHandler failedLeafDb zeroRng ⟨some "pharmacology-lesson1", none, none, none, none⟩
        = .typeError := by
  decide

/-- C6: `getSubjectPool` on an index whose only pharmacology lesson failed to
parse: the pool is not the empty concatenation of questions lists but holds the
element `undefined`, and the handler of `/mcqs` answers 200 with that element
instead of 400. -/
theorem getSubjectPool_failed_leaf :
    getSubjectPool failedLeafDb "pharmacology" = [Item.undefined] ∧
      mcqsHandler failedLeafDb zeroRng ⟨none, some "pharmacology", none, none, none⟩
        = .ok { items := [Item.undefined], total := 1, page := 1, pageSize := 10,
                totalPages := 1 } := by
  decide

/-- C7: `Object.values(db).flat()` on an index of two lessons with three and two
questions: the pool holds the two lesson record objects, not the five questions,
and the handler of `/mcqs/random` without subject reports `total = 2` and
delivers the two records. -/
theorem valuesFlat_lesson_records :
    valuesFlat sampleDb
        = [Item.lesson "pharmacology-lesson1"
              { questions := [0, 1, 2], title := "pharmacology-lesson1" },
            Item.lesson "pathology-lesson1"
              { questions := [100, 101], title := "pathology-lesson1" }] ∧
      randomHandler sampleDb zeroRng none (some 10)
        = .ok { items := [Item.lesson "pathology-lesson1"
                            { questions := [100, 101], title := "pathology-lesson1" },
                          Item.lesson "pharmacology-lesson1"
                            { questions := [0, 1, 2], title := "pharmacology-lesson1" }],
                total := 2, requested := 10, delivered := 2 } := by
  decide

/-- C8: with `FINALS_RATIO = {pharmacology: 0.5, pathology: 0.5}`, for every index,
every `count ≥ 1` and every random source the handler of `/mcqs/finals` reports
`requested = count`, `delivered = |items| ≤ count` and the ratio mapping. -/
theorem finals_delivered_le {Q : Type} [DecidableEq Q] (db : Index Q) (rng : Rng) (count : Nat)
    (hc : 1 ≤ count) :
    ∃ body, finalsHandler db rng (some count) = .ok body ∧ body.requested = count ∧
      body.delivered = body.items.length ∧ body.items.length ≤ count ∧
      body.ratio = FINALS_RATIO := by
  apply finalsWith_length_le FINALS_RATIO db rng count hc
  simp only [ FINALS_RATIO, Ratio.quota, List.map_cons, List.map_nil, List.sum_cons,
    List.sum_nil]
  omega

/-- Five finals questions asked of an index of five questions. -/
theorem finals_delivered_le_witness :
    1 ≤ 5 ∧
    ∃ body, finalsHandler sampleDb zeroRng (some 5) = .ok body ∧ body.requested = 5 ∧
      body.delivered = body.items.length ∧ body.items.length ≤ 5 ∧
      body.ratio = FINALS_RATIO :=
  ⟨by decide, finals_delivered_le sampleDb zeroRng 5 (by decide)⟩

/-- C9, as stated, fails: with the ratios `1` and `1`, both in `(0, 1]`, and
`count = 2`, an index of three pharmacology and two pathology questions makes the
loop collect four elements, and no filler step takes them away. -/
theorem finalsWith_exceeds_count :
    (∀ e ∈ fullRatios, 0 < e.2.num ∧ e.2.num ≤ e.2.den) ∧ 1 ≤ 2 ∧
    ∃ body, finalsWith fullRatios sampleDb zeroRng (some 2) = .ok body ∧
      body.items.length = 4 ∧ ¬ body.items.length ≤ 2 := by
  refine ⟨by decide, by decide, ?_⟩
  have h : finalsWith fullRatios sampleDb zeroRng (some 2)
      = .ok { items := [.question 1, .question 2, .question 101, .question 100],
              requested := 2, delivered := 4, ratio := fullRatios } := by
    decide
  exact ⟨_, h, rfl, by decide⟩

/-- C9, amended: for every ratio mapping whose quotas `floor(count * ratio)` add up
to at most `count`, every index, every `count ≥ 1` and every random source, the
loop followed by the filler step yields at most `count` elements. -/
theorem finalsWith_delivered_le {Q : Type} [DecidableEq Q] (ratios : List (String × Ratio))
    (db : Index Q) (rng : Rng) (count : Nat) (hc : 1 ≤ count)
    (hq : (ratios.map (fun e => e.2.quota count)).sum ≤ count) :
    ∃ body, finalsWith ratios db rng (some count) = .ok body ∧ body.requested = count ∧
      body.delivered = body.items.length ∧ body.items.length ≤ count := by
  obtain ⟨body, hb, h1, h2, h3, _⟩ := finalsWith_length_le ratios db rng count hc hq
  exact ⟨body, hb, h1, h2, h3⟩

/-- Ratios `1/3` and `1/3` with `count = 5`: the quotas are `1` and `1`. -/
theorem finalsWith_delivered_le_witness :
    (1 ≤ 5 ∧ (thirdRatios.map (fun e => e.2.quota 5)).sum ≤ 5) ∧
    ∃ body, finalsWith thirdRatios sampleDb zeroRng (some 5) = .ok body ∧ body.requested = 5 ∧
      body.delivered = body.items.length ∧ body.items.length ≤ 5 :=
  ⟨⟨by decide, by decide⟩,
    finalsWith_delivered_le thirdRatios sampleDb zeroRng 5 (by decide) (by decide)⟩

/-- C10: for every index and `count ≥ 1` the finals result is the pharmacology
slice, then the pathology slice, then the filler (empty when the slices already
number `count`), where the slice of a subject is the first
`min(floor(count * 0.5), |subject pool|)` elements of a shuffle of the pool of the
subject, so each of its elements belongs to that pool; for `count = 50` and pools
of at least 25 elements each slice has exactly 25 elements and there is no
filler. -/
theorem finals_composition {Q : Type} [DecidableEq Q] (db : Index Q) (rng : Rng) (count : Nat)
    (hc : 1 ≤ count) :
    ∃ body, finalsHandler db rng (some count) = .ok body ∧
      body.items
        = subjectSlice db rng "pharmacology" ⟨1, 2⟩ count
          ++ subjectSlice db (afterShuffle rng (getSubjectPool db "pharmacology"))
              "pathology" ⟨1, 2⟩ count
          ++ (if (subjectSlice db rng "pharmacology" ⟨1, 2⟩ count
                  ++ subjectSlice db (afterShuffle rng (getSubjectPool db "pharmacology"))
                      "pathology" ⟨1, 2⟩ count).length < count then
                finalsFiller db
                  (afterShuffle (afterShuffle rng (getSubjectPool db "pharmacology"))
                    (getSubjectPool db "pathology"))
                  count
                  (subjectSlice db rng "pharmacology" ⟨1, 2⟩ count
                    ++ subjectSlice db (afterShuffle rng (getSubjectPool db "pharmacology"))
                        "pathology" ⟨1, 2⟩ count)
              else []) ∧
      Ratio.quota ⟨1, 2⟩ count = count / 2 ∧
      (∀ x ∈ subjectSlice db rng "pharmacology" ⟨1, 2⟩ count,
        x ∈ getSubjectPool db "pharmacology") ∧
      (∀ x ∈ subjectSlice db (afterShuffle rng (getSubjectPool db "pharmacology"))
          "pathology" ⟨1, 2⟩ count, x ∈ getSubjectPool db "pathology") ∧
      (count = 50 → 25 ≤ (getSubjectPool db "pharmacology").length →
        25 ≤ (getSubjectPool db "pathology").length →
        (subjectSlice db rng "pharmacology" ⟨1, 2⟩ count).length = 25 ∧
        (subjectSlice db (afterShuffle rng (getSubjectPool db "pharmacology"))
          "pathology" ⟨1, 2⟩ count).length = 25 ∧
        body.items
          = subjectSlice db rng "pharmacology" ⟨1, 2⟩ count
            ++ subjectSlice db (afterShuffle rng (getSubjectPool db "pharmacology"))
                "pathology" ⟨1, 2⟩ count) := by
  have hmem : ∀ (r : Rng) (subject : String) (x : Item Q),
      x ∈ subjectSlice db r subject ⟨1, 2⟩ count → x ∈ getSubjectPool db subject := by
    intro r subject x hx
    exact (shuffle_perm_pool r _).subset (List.mem_of_mem_take hx)
  have hlen : ∀ (r : Rng) (subject : String),
      (subjectSlice db r subject ⟨1, 2⟩ count).length
        = min (count / 2) (getSubjectPool db subject).length := by
    intro r subject
    simp only [subjectSlice, Ratio.quota, List.length_take, shuffle_length, Nat.mul_one]
    omega
  have hstrata : strata db count FINALS_RATIO rng []
      = (subjectSlice db rng "pharmacology" ⟨1, 2⟩ count
          ++ subjectSlice db (afterShuffle rng (getSubjectPool db "pharmacology"))
              "pathology" ⟨1, 2⟩ count,
        afterShuffle (afterShuffle rng (getSubjectPool db "pharmacology"))
          (getSubjectPool db "pathology")) := by
    simp only [strata, FINALS_RATIO, subjectSlice_eq, List.nil_append]
  refine ⟨_, finalsWith_eq FINALS_RATIO db rng count hc, ?_, ?_, hmem _ _, hmem _ _, ?_⟩
  · simp only [hstrata]
    split
    · rfl
    · rw [List.append_nil]
  · simp [Ratio.quota]
  · intro h50 h1 h2
    have l1 := hlen rng "pharmacology"
    have l2 := hlen (afterShuffle rng (getSubjectPool db "pharmacology")) "pathology"
    subst h50
    refine ⟨by omega, by omega, ?_⟩
    simp only [hstrata]
    rw [if_neg (by rw [List.length_append]; omega)]

/-- Fifty finals questions asked of an index of 25 pharmacology and 25 pathology
questions: two slices of 25 and no filler. -/
theorem finals_composition_witness :
    (1 ≤ 50 ∧ 25 ≤ (getSubjectPool sampleDb50 "pharmacology").length ∧
      25 ≤ (getSubjectPool sampleDb50 "pathology").length) ∧
    ∃ body, finalsHandler sampleDb50 zeroRng (some 50) = .ok body ∧
      (subjectSlice sampleDb50 zeroRng "pharmacology" ⟨1, 2⟩ 50).length = 25 ∧
      (subjectSlice sampleDb50 (afterShuffle zeroRng (getSubjectPool sampleDb50 "pharmacology"))
        "pathology" ⟨1, 2⟩ 50).length = 25 ∧
      body.items
        = subjectSlice sampleDb50 zeroRng "pharmacology" ⟨1, 2⟩ 50
          ++ subjectSlice sampleDb50
              (afterShuffle zeroRng (getSubjectPool sampleDb50 "pharmacology"))
              "pathology" ⟨1, 2⟩ 50 := by
  have h1 : 25 ≤ (getSubjectPool sampleDb50 "pharmacology").length := by decide
  have h2 : 25 ≤ (getSubjectPool sampleDb50 "pathology").length := by decide
  obtain ⟨body, hb, _, _, _, _, h50⟩ := finals_composition sampleDb50 zeroRng 50 (by decide)
  exact ⟨⟨by decide, h1, h2⟩, body, hb, h50 rfl h1 h2⟩


/-- C11: for every index and every optional subject, when the comparison of keys
that `localeCompare` makes is total and transitive, the sequence `listLessons`
returns is sorted: the lesson numbers derived from the keys do not decrease, a key
without number counting as `+infinity`, and entries with equal or absent numbers
are in the order of the comparison of their keys; this holds for each two entries
and so for adjacent ones.  The number derived from a key is the double that
`Number` gives for its digits.  The keys `pharmacology-lesson1`,
`pharmacology-lesson10`, `pharmacology-lesson2` come out as lesson 1, 2, 10,
whatever the comparison of keys is.  The keys `b9007199254740992` and
`a9007199254740993` have the same number `2^53` and come out in the order of the
comparison of keys, and a key whose 310 digits give `Infinity` comes out among
the keys without number. -/
theorem listLessons_sorted {Q : Type} (localeCompare : String → String → Int) (db : Index Q)
    (subject : Option String)
    (htotal : ∀ a b, localeCompare a b ≤ 0 ∨ localeCompare b a ≤ 0)
    (htrans : ∀ a b c, localeCompare a b ≤ 0 → localeCompare b c ≤ 0 → localeCompare a c ≤ 0) :
    (listLessons localeCompare db subject).Pairwise (lessonOrder localeCompare) ∧
      (listLessons localeCompare db subject).Chain' (lessonOrder localeCompare) ∧
      (listLessons localeCompare lessonsDb (some "pharmacology")).map (fun l => l.key)
        = ["pharmacology-lesson1", "pharmacology-lesson2", "pharmacology-lesson10"] ∧
      (lessonNumber "b9007199254740992" = some (2 ^ 53) ∧
        lessonNumber "a9007199254740993" = some (2 ^ 53) ∧
        (¬ localeCompare "b9007199254740992" "a9007199254740993" ≤ 0 →
          (listLessons localeCompare roundingDb none).map (fun l => l.key)
            = ["a9007199254740993", "b9007199254740992"])) ∧
      (lessonNumber overflowKey = none ∧ lessonNumber "intro" = none ∧
        (¬ localeCompare overflowKey "intro" ≤ 0 →
          (listLessons localeCompare overflowDb none).map (fun l => l.key)
            = ["lesson5", "intro", overflowKey])) :=
  ⟨listLessons_pairwise localeCompare db subject htotal htrans,
    (listLessons_pairwise localeCompare db subject htotal htrans).chain', rfl,
    ⟨by decide, by decide, listLessons_rounding localeCompare⟩,
    ⟨lessonNumber_overflowKey.2, by decide, listLessons_overflow localeCompare⟩⟩

/-- The listings of the sample indices under the comparison of keys by code
points. -/
theorem listLessons_sorted_witness :
    ((∀ a b, codePointCompare a b ≤ 0 ∨ codePointCompare b a ≤ 0) ∧
      (∀ a b c, codePointCompare a b ≤ 0 → codePointCompare b c ≤ 0 →
        codePointCompare a c ≤ 0)) ∧
    (listLessons codePointCompare lessonsDb (some "pharmacology")).Pairwise
        (lessonOrder codePointCompare) ∧
      (listLessons codePointCompare lessonsDb (some "pharmacology")).Chain'
        (lessonOrder codePointCompare) ∧
      (listLessons codePointCompare lessonsDb (some "pharmacology")).map (fun l => l.key)
        = ["pharmacology-lesson1", "pharmacology-lesson2", "pharmacology-lesson10"] ∧
      roundingDb.map Prod.fst = ["b9007199254740992", "a9007199254740993"] ∧
      (listLessons codePointCompare roundingDb none).map (fun l => l.key)
        = ["a9007199254740993", "b9007199254740992"] ∧
      overflowDb.map Prod.fst = [overflowKey, "intro", "lesson5"] ∧
      (listLessons codePointCompare overflowDb none).map (fun l => l.key)
        = ["lesson5", "intro", overflowKey] := by
  have htotal : ∀ a b, codePointCompare a b ≤ 0 ∨ codePointCompare b a ≤ 0 := by
    intro a b
    rw [codePointCompare_le_iff, codePointCompare_le_iff]
    exact le_total a b
  have htrans : ∀ a b c, codePointCompare a b ≤ 0 → codePointCompare b c ≤ 0 →
      codePointCompare a c ≤ 0 := by
    intro a b c
    rw [codePointCompare_le_iff, codePointCompare_le_iff, codePointCompare_le_iff]
    exact le_trans
  have hba : ¬ codePointCompare "b9007199254740992" "a9007199254740993" ≤ 0 := by
    rw [codePointCompare_le_iff, not_le, String.lt_iff_toList_lt]
    exact List.Lex.rel (by decide)
  have hoi : ¬ codePointCompare overflowKey "intro" ≤ 0 := by
    rw [codePointCompare_le_iff, not_le, String.lt_iff_toList_lt]
    exact List.Lex.rel (by decide)
  obtain ⟨h1, h2, h3, ⟨_, _, h4⟩, ⟨_, _, h5⟩⟩ :=
    listLessons_sorted codePointCompare lessonsDb (some "pharmacology") htotal htrans
  exact ⟨⟨htotal, htrans⟩, h1, h2, h3, rfl, h4 hba, rfl, h5 hoi⟩


/-- C12: the handler of `/mcqs` on the index built from a source tree whose file
`pharmacology/lesson1.json` did not parse.  The build stores `[]` under the key,
the listing serves the lesson with zero questions, but a request for the lesson
makes the handler throw, for every page, page size and random source, instead of
answering 200 or 400. -/
theorem mcqs_failed_lesson_throws (rng : Rng) (page pageSize count : Option Nat)
    (localeCompare : String → String → Int) :
    loadMCQs failingTree
        = [("pharmacology-lesson1", Entry.failed),
           ("pharmacology-lesson2",
             Entry.record { questions := [1, 2], title := "pharmacology-lesson2" })] ∧
      mcqsHandler (loadMCQs failingTree) rng
          ⟨some "pharmacology-lesson1", none, page, pageSize, count⟩ = .typeError ∧
      listLessons localeCompare (loadMCQs failingTree) (some "pharmacology")
        = [{ key := "pharmacology-lesson1", title := "pharmacology-lesson1", count := 0 },
           { key := "pharmacology-lesson2", title := "pharmacology-lesson2", count := 2 }] :=
  ⟨by decide, rfl, rfl⟩

/-- C13: the record computed from a file that parses, for its key.  An array gives
the record with `title = key` and the array as questions, so three questions in
give three out; an object with a `questions` array gives those questions and its
title when that is present and not empty, and `title = key` otherwise; every other
shape gives `title = key` and no question.  A file `lesson1.json` directly under
the root is indexed with that record under `lesson1`. -/
theorem leafEntry_shapes {Q : Type} (key : String) :
    (∀ data : List Q,
      leafEntry key (some (.array data)) = .record { questions := data, title := key }) ∧
    (∀ q1 q2 q3 : Q, ∃ r : LessonRecord Q,
      leafEntry key (some (.array [q1, q2, q3])) = .record r ∧ r.title = key ∧
        r.questions.length = 3) ∧
    (∀ (questions : List Q) (title : String), title ≠ "" →
      leafEntry key (some (.object (some questions) (some title)))
        = .record { questions := questions, title := title }) ∧
    (∀ questions : List Q,
      leafEntry key (some (.object (some questions) none))
          = .record { questions := questions, title := key } ∧
        leafEntry key (some (.object (some questions) (some "")))
          = .record { questions := questions, title := key }) ∧
    (∀ title : Option String,
      leafEntry key (some (.object (none : Option (List Q)) title))
        = .record { questions := [], title := key }) ∧
    leafEntry key (some (.other : Payload Q)) = .record { questions := [], title := key } ∧
    (∀ payload : Payload Q,
      loadMCQs [Node.file "lesson1.json" (some payload)]
        = [("lesson1", leafEntry "lesson1" (some payload))]) := by
  refine ⟨fun _ => rfl, fun q1 q2 q3 => ⟨_, rfl, rfl, rfl⟩, ?_, fun _ => ⟨rfl, rfl⟩,
    fun _ => rfl, rfl, fun _ => rfl⟩
  intro questions title ht
  simp only [leafEntry, truthy_some_of_ne ht, Option.getD_some]

/-- The object `{title: "X", questions: [4, 5]}` keeps its title. -/
theorem leafEntry_shapes_witness :
    "X" ≠ "" ∧
      leafEntry "pharmacology-lesson2" (some (.object (some [4, 5]) (some "X")))
        = Entry.record { questions := [4, 5], title := "X" } :=
  ⟨by decide, (leafEntry_shapes "pharmacology-lesson2").2.2.1 [4, 5] "X" (by decide)⟩

/-- C14: for every source tree whose directories have a name, `loadMCQs` makes one
assignment `db[key] = ...` for each lesson file, in depth-first order, under the
key of the file: the name of the file when it lies directly under the root, and
otherwise the name of its immediate parent group, `-` and the name of the file,
whatever groups lie above the parent.  The keys of the index are keys of lesson
files, and the key of a lesson file is a key of the index unless it is
`__proto__`, for which the assignment adds no property. -/
theorem loadMCQs_keys {Q : Type} (tree : List (Node Q)) (h : namesOkList tree = true) :
    loadMCQs tree = (leavesOf [] tree).foldl (fun db l => dbSet db l.key l.entry) [] ∧
      (∀ l ∈ leavesOf [] tree,
        (l.path = [] → l.key = l.leafName) ∧
        (∀ (above : List String) (parent : String), l.path = above ++ [parent] →
          l.key = parent ++ "-" ++ l.leafName)) ∧
      (∀ l ∈ leavesOf [] tree, (l.key ∈ (loadMCQs tree).map Prod.fst ↔ l.key ≠ "__proto__")) ∧
      (∀ k ∈ (loadMCQs tree).map Prod.fst, ∃ l ∈ leavesOf [] tree, l.key = k) := by
  refine ⟨loadMCQs_eq_foldl tree h, ?_, ?_, ?_⟩
  · intro l _
    constructor
    · intro hp
      simp [Leaf.key, hp]
    · intro above parent hp
      simp [Leaf.key, hp]
  · intro l hl
    rw [(loadMCQs_entries tree h).2.1 l.key]
    exact ⟨fun hk => hk.1, fun hne => ⟨hne, l, hl, rfl⟩⟩
  · intro k hk
    exact (((loadMCQs_entries tree h).2.1 k).mp hk).2

/-- The lesson files of the sample tree, with the groups above them and their
keys: the file two groups below `pharmacology` takes the name of `deep` only. -/
theorem loadMCQs_keys_witness :
    namesOkList sampleTree = true ∧
      (leavesOf [] sampleTree).map (fun l => (l.path, l.leafName, l.key))
        = [(["pharmacology"], "lesson1", "pharmacology-lesson1"),
           (["pharmacology", "extra", "deep"], "lesson9", "deep-lesson9"),
           (["pharmacology"], "lesson2", "pharmacology-lesson2"),
           ([], "intro", "intro"), ([], "7", "7")] ∧
      (loadMCQs sampleTree).map Prod.fst
        = ["7", "pharmacology-lesson1", "deep-lesson9", "pharmacology-lesson2", "intro"] ∧
      loadMCQs sampleTree
        = (leavesOf [] sampleTree).foldl (fun db l => dbSet db l.key l.entry) [] :=
  ⟨by decide, by decide, by decide, (loadMCQs_keys sampleTree (by decide)).1⟩

/-- C15: `loadMCQs` on a source tree with the lesson files `__proto__.json` and
`intro.json` directly under the root.  The keys computed from the two files are
`__proto__` and `intro`, but the index has the one key `intro`: the assignment
`db["__proto__"] = ...` adds no property, so the key `__proto__` of a lesson file
is no key of the index.  On the two files that flatten to `pharmacology-lesson1`
the index holds the record of the file visited last. -/
theorem loadMCQs_proto_leaf :
    namesOkList protoTree = true ∧
      (leavesOf [] protoTree).map (fun l => (l.key, l.entry))
        = [("__proto__", Entry.record { questions := [1], title := "__proto__" }),
           ("intro", Entry.record { questions := [2, 3], title := "intro" })] ∧
      loadMCQs protoTree = [("intro", Entry.record { questions := [2, 3], title := "intro" })] ∧
      "__proto__" ∈ (leavesOf [] protoTree).map Leaf.key ∧
      "__proto__" ∉ (loadMCQs protoTree).map Prod.fst ∧
      loadMCQs collidingTree
        = [("pharmacology-lesson1",
              Entry.record { questions := [4], title := "pharmacology-lesson1" })] := by
  decide

/-- C16: `loadMCQs` on a source tree whose file `pharmacology/lesson1.json` does
not parse.  The build returns and indexes the other file as usual, but the value
under the key of the failing file is `[]`, which is not the record
`{title = key, questions = []}` that an unrecognised shape yields, and the failing
lesson contributes the element `undefined` to the pool of its subject, which has
three elements for two questions. -/
theorem loadMCQs_failed_leaf :
    (loadMCQs failingTree).lookup "pharmacology-lesson1" = some Entry.failed ∧
      leafEntry "pharmacology-lesson1" (some (Payload.other : Payload Nat))
        = Entry.record { questions := [], title := "pharmacology-lesson1" } ∧
      (Entry.failed : Entry Nat)
        ≠ Entry.record { questions := [], title := "pharmacology-lesson1" } ∧
      (loadMCQs failingTree).lookup "pharmacology-lesson2"
        = some (Entry.record { questions := [1, 2], title := "pharmacology-lesson2" }) ∧
      getSubjectPool (loadMCQs failingTree) "pharmacology"
        = [Item.undefined, Item.question 1, Item.question 2] := by
  decide

/-- C17: the finals handlers on the index built from a source tree whose two
pharmacology files do not parse.  The index holds no question, so its question
references are pairwise distinct, yet with `count = 4` both the handler of
`api.js` and that of `server.js` deliver the element `undefined` twice. -/
theorem finals_repeats_undefined :
    loadMCQs twoFailedTree
        = [("pharmacology-lesson1", Entry.failed), ("pharmacology-lesson2", Entry.failed)] ∧
      ((loadMCQs twoFailedTree).flatMap (fun e => e.2.questionList)).Nodup ∧
      apiFinalsHandler (loadMCQs twoFailedTree) zeroRng (some 4)
        = .ok { items := [Item.undefined, Item.undefined], requested := 4, delivered := 2,
                ratio := FINALS_RATIO } ∧
      finalsHandler (loadMCQs twoFailedTree) zeroRng (some 4)
        = .ok { items := [Item.undefined, Item.undefined], requested := 4, delivered := 2,
                ratio := FINALS_RATIO } ∧
      ¬ ([Item.undefined, Item.undefined] : List (Item Nat)).Nodup := by
  decide

/-- C18: when the handler of `/mcqs` resolved a pool `P`, then for every
`page ≥ 1`, `pageSize ≥ 1` and random source the response reports `total = |P|`
and `totalPages = ceil(total / pageSize)`, which is `0` for an empty pool, and the
page returned is not empty exactly when `1 ≤ page ≤ totalPages`. -/
theorem mcqs_total_pages {Q : Type} (db : Index Q) (rng : Rng) (lesson subject : Option String)
    (count : Option Nat) (page pageSize : Nat) (P : List (Item Q))
    (hpage : 1 ≤ page) (hsize : 1 ≤ pageSize)
    (hP : resolvePool db ⟨lesson, subject, some page, some pageSize, count⟩ = .ok (some P)) :
    ∃ body, mcqsHandler db rng ⟨lesson, subject, some page, some pageSize, count⟩ = .ok body ∧
      body.total = P.length ∧
      body.totalPages = ⌈(P.length : ℚ) / (pageSize : ℚ)⌉₊ ∧
      (P = [] → body.totalPages = 0) ∧
      (body.items ≠ [] ↔ 1 ≤ page ∧ page ≤ body.totalPages) := by
  refine ⟨takePage rng P page pageSize, ?_, rfl, ceilDiv_eq P.length pageSize hsize, ?_, ?_⟩
  · unfold mcqsHandler
    rw [hP]
    simp only [McqsQuery.pageNumber, McqsQuery.effectivePageSize, Option.getD_some,
      Nat.max_eq_right hpage, Nat.max_eq_right hsize]
  · intro hnil
    subst hnil
    show (0 + pageSize - 1) / pageSize = 0
    rw [Nat.zero_add]
    exact Nat.div_eq_of_lt (by omega)
  · have h := page_nonempty_iff (shuffle rng P) page pageSize hpage hsize
    rw [shuffle_length] at h
    exact h

/-- A lesson of three questions in pages of two: two pages, the second not
empty. -/
theorem mcqs_total_pages_witness :
    (1 ≤ 2 ∧ 1 ≤ 2 ∧
      resolvePool sampleDb ⟨some "pharmacology-lesson1", none, some 2, some 2, none⟩
        = .ok (some [.question 0, .question 1, .question 2])) ∧
    ∃ body, mcqsHandler sampleDb zeroRng ⟨some "pharmacology-lesson1", none, some 2, some 2, none⟩
        = .ok body ∧ body.total = 3 ∧ body.totalPages = 2 ∧ body.items ≠ [] := by
  have h3 : mcqsHandler sampleDb zeroRng
      ⟨some "pharmacology-lesson1", none, some 2, some 2, none⟩
      = .ok { items := [.question 0], total := 3, page := 2, pageSize := 2,
              totalPages := 2 } := by
    decide
  obtain ⟨body, hb, ht, _, _, hiff⟩ :=
    mcqs_total_pages sampleDb zeroRng (some "pharmacology-lesson1") none none 2 2
      [.question 0, .question 1, .question 2] (by decide) (by decide) (by decide)
  rw [h3] at hb
  cases hb
  exact ⟨⟨by decide, by decide, by decide⟩, _, h3, rfl, rfl, hiff.mpr ⟨by decide, by decide⟩⟩

/-- C19: for every index, optional subject and `pageSize ≥ 1` the handler of
`/lessons` reports `totalLessons = |listLessons(subject)|` and
`totalPages = ceil(totalLessons / pageSize)`, page `p` holds the elements of the
sorted listing at the positions from `(p-1)*pageSize` up to, not including,
`p*pageSize`, and the pages `1, ..., totalPages` one after the other are the
sorted listing. -/
theorem lessons_pages {Q : Type} (localeCompare : String → String → Int) (db : Index Q)
    (subject : Option String) (pageSize : Nat) (hsize : 1 ≤ pageSize) :
    (∀ page : Nat, 1 ≤ page →
      ∃ body, lessonsHandler localeCompare db subject (some page) (some pageSize) = .ok body ∧
        body.totalLessons = (listLessons localeCompare db subject).length ∧
        body.totalPages
          = ⌈((listLessons localeCompare db subject).length : ℚ) / (pageSize : ℚ)⌉₊ ∧
        body.lessons
          = ((listLessons localeCompare db subject).drop ((page - 1) * pageSize)).take pageSize ∧
        (∀ i : Nat, i < pageSize →
          body.lessons[i]? = (listLessons localeCompare db subject)[(page - 1) * pageSize + i]?) ∧
        (∀ i : Nat, pageSize ≤ i → body.lessons[i]? = none) ∧
        lessonsPage localeCompare db subject page pageSize = body.lessons) ∧
    (List.range ⌈((listLessons localeCompare db subject).length : ℚ) / (pageSize : ℚ)⌉₊).flatMap
        (fun k => lessonsPage localeCompare db subject (k + 1) pageSize)
      = listLessons localeCompare db subject := by
  have hbody : ∀ page : Nat, 1 ≤ page →
      lessonsHandler localeCompare db subject (some page) (some pageSize)
        = .ok { lessons := ((listLessons localeCompare db subject).drop
                  ((page - 1) * pageSize)).take pageSize
                totalLessons := (listLessons localeCompare db subject).length
                page := page
                pageSize := pageSize
                totalPages := ((listLessons localeCompare db subject).length + pageSize - 1)
                  / pageSize } := by
    intro page hpage
    unfold lessonsHandler
    simp only [Option.getD_some, Nat.max_eq_right hpage, Nat.max_eq_right hsize,
      listLessons_truthy]
  have hpageOf : ∀ page : Nat, 1 ≤ page →
      lessonsPage localeCompare db subject page pageSize
        = ((listLessons localeCompare db subject).drop ((page - 1) * pageSize)).take
            pageSize := by
    intro page hpage
    unfold lessonsPage
    rw [hbody page hpage]
  constructor
  · intro page hpage
    refine ⟨_, hbody page hpage, rfl, ceilDiv_eq _ pageSize hsize, rfl, ?_, ?_,
      hpageOf page hpage⟩
    · intro i hi
      show (((listLessons localeCompare db subject).drop ((page - 1) * pageSize)).take
        pageSize)[i]? = _
      rw [List.getElem?_take_of_lt hi, List.getElem?_drop]
    · intro i hi
      show (((listLessons localeCompare db subject).drop ((page - 1) * pageSize)).take
        pageSize)[i]? = none
      rw [List.getElem?_eq_none]
      rw [List.length_take]
      omega
  · rw [← ceilDiv_eq _ pageSize hsize]
    have hfun : (fun k => lessonsPage localeCompare db subject (k + 1) pageSize)
        = fun k => ((listLessons localeCompare db subject).drop (k * pageSize)).take
            pageSize := by
      funext k
      rw [hpageOf (k + 1) (by omega), Nat.add_sub_cancel]
    rw [hfun]
    apply flatMap_pages
    have h1 := Nat.div_add_mod ((listLessons localeCompare db subject).length + pageSize - 1)
      pageSize
    have h2 := Nat.mod_lt ((listLessons localeCompare db subject).length + pageSize - 1)
      (show 0 < pageSize from hsize)
    rw [Nat.mul_comm]
    omega

/-- The four lessons of the sample listing in pages of three: two pages. -/
theorem lessons_pages_witness :
    1 ≤ 3 ∧
    (List.range ⌈((listLessons codePointCompare lessonsDb none).length : ℚ) / ((3 : Nat) : ℚ)⌉₊).flatMap
        (fun k => lessonsPage codePointCompare lessonsDb none (k + 1) 3)
      = listLessons codePointCompare lessonsDb none :=
  ⟨by decide, (lessons_pages codePointCompare lessonsDb none 3 (by decide)).2⟩

/-- C20: for every index and optional subject, `listLessons` returns a permutation
of the entries of the records of the index whose key starts with `subject + "-"`,
of all records when no subject is given: one entry for each such record and no
other, each with the key of the record, its title, the key when the title is
empty, and the length of its questions list; an entry has no field for the lesson
number. -/
theorem listLessons_perm {Q : Type} (localeCompare : String → String → Int) (db : Index Q)
    (subject : Option String) :
    (listLessons localeCompare db subject).Perm
        ((db.filter (lessonFilter subject)).map lessonInfo) ∧
      (listLessons localeCompare db subject).length
        = (db.filter (lessonFilter subject)).length ∧
      (∀ info : LessonInfo, info ∈ listLessons localeCompare db subject ↔
        ∃ e ∈ db, lessonFilter subject e = true ∧ info = lessonInfo e) ∧
      (∀ e : String × Entry Q, lessonFilter (none : Option String) e = true) ∧
      (∀ (p : String) (e : String × Entry Q), p ≠ "" →
        lessonFilter (some p) e = startsWith e.1 (p ++ "-")) := by
  have hperm : (listLessons localeCompare db subject).Perm
      ((db.filter (lessonFilter subject)).map lessonInfo) := by
    unfold listLessons
    have h1 := (List.perm_insertionSort (fun a b => compareLessons localeCompare a b ≤ 0)
      ((db.filter (lessonFilter subject)).map lessonRow)).map LessonRow.rest
    have h2 : ((db.filter (lessonFilter subject)).map lessonRow).map LessonRow.rest
        = (db.filter (lessonFilter subject)).map lessonInfo := by
      rw [List.map_map]
      congr 1
      funext e
      exact lessonRow_rest e
    rw [h2] at h1
    exact h1
  refine ⟨hperm, ?_, ?_, fun _ => rfl, ?_⟩
  · rw [hperm.length_eq, List.length_map]
  · intro info
    rw [hperm.mem_iff, List.mem_map]
    constructor
    · rintro ⟨e, he, rfl⟩
      rw [List.mem_filter] at he
      exact ⟨e, he.1, he.2, rfl⟩
    · rintro ⟨e, he, hf, rfl⟩
      exact ⟨e, List.mem_filter.mpr ⟨he, hf⟩, rfl⟩
  · intro p e hp
    simp only [lessonFilter, truthy_some_of_ne hp]


/-- C21: for every key, `extractLessonNumber` is what the regular expression
`/(?:lesson[-_]?)?(\d+)$/i` and `Number` give.  It returns `NaN` exactly when the
key does not end in an ASCII digit.  Otherwise the key is `pre ++ ds` with `ds` a
run of digits that no suffix made of digits exceeds in length, and the value is
the number `ds` denotes when that is below `2^53`, leading zeros ignored, with or
without the marker before the digits: `lesson-12` and `lesson12` give 12, a
bare trailing 7 gives 7. -/
theorem extractLessonNumber_trailing_digits (key : String) :
    extractLessonNumber key = extractLessonNumberOfMatch key ∧
      (extractLessonNumberOfMatch key = none ↔
        ¬ ∃ c, key.toList.getLast? = some c ∧ c.isDigit = true) ∧
      ((∃ c, key.toList.getLast? = some c ∧ c.isDigit = true) →
        ∃ pre ds : List Char, key.toList = pre ++ ds ∧ ds ≠ [] ∧
          (∀ c ∈ ds, c.isDigit = true) ∧
          (∀ pre' ds' : List Char, key.toList = pre' ++ ds' →
            (∀ c ∈ ds', c.isDigit = true) → ds'.length ≤ ds.length) ∧
          (decimalValue ds < 2 ^ 53 →
            extractLessonNumberOfMatch key = some (decimalValue ds))) ∧
      extractLessonNumberOfMatch "pharmacology-lesson-12" = some 12 ∧
      extractLessonNumberOfMatch "pharmacology-lesson12" = some 12 ∧
      extractLessonNumberOfMatch "pharmacology-LESSON_012" = some 12 ∧
      extractLessonNumberOfMatch "chapter7" = some 7 ∧
      extractLessonNumberOfMatch "7" = some 7 ∧
      extractLessonNumberOfMatch "pharmacology-lesson" = none ∧
      extractLessonNumberOfMatch "12-lesson" = none := by
  obtain ⟨⟨pre, hpre⟩, hdig, hlong, hnil⟩ := trailing_run_spec key.toList
  have hval : extractLessonNumberOfMatch key
      = match (key.toList.reverse.takeWhile Char.isDigit).reverse with
        | [] => none
        | ds => some (Number (decimalValue ds)) := by
    unfold extractLessonNumberOfMatch
    rw [matchFrom_eq]
    cases (key.toList.reverse.takeWhile Char.isDigit).reverse with
    | nil => rfl
    | cons d ds => rfl
  refine ⟨extractLessonNumber_eq_ofMatch key, ?_, ?_, by decide, by decide, by decide,
    by decide, by decide, by decide, by decide⟩
  · rw [← hnil, hval]
    cases (key.toList.reverse.takeWhile Char.isDigit).reverse with
    | nil => simp
    | cons d ds => simp
  · intro hlast
    have hne : (key.toList.reverse.takeWhile Char.isDigit).reverse ≠ [] := by
      intro h
      exact (hnil.mp h) hlast
    refine ⟨pre, _, hpre, hne, hdig, hlong, fun hlt => ?_⟩
    rw [hval]
    cases hds : (key.toList.reverse.takeWhile Char.isDigit).reverse with
    | nil => exact absurd hds hne
    | cons d ds =>
      rw [hds] at hlt
      simp only [Number_of_lt _ hlt]

/-- The key `pharmacology-lesson012` ends in a digit; its number is 12. -/
theorem extractLessonNumber_trailing_digits_witness :
    (∃ c, "pharmacology-lesson012".toList.getLast? = some c ∧ c.isDigit = true) ∧
      decimalValue ['0', '1', '2'] < 2 ^ 53 ∧
      extractLessonNumber "pharmacology-lesson012" = some 12 ∧
      extractLessonNumberOfMatch "pharmacology-lesson012" = some 12 := by
  have h := (extractLessonNumber_trailing_digits "pharmacology-lesson012").1
  exact ⟨⟨'2', by decide, by decide⟩, by decide, by rw [h]; decide, by decide⟩

/-- C22: in `api.js`, for every index in which every file parsed and whose
questions are pairwise distinct, every `count ≥ 1` and every random source, the
finals handler delivers exactly `min(count, N)` items, `N` the number of questions
of the index, none of them twice; when it delivers fewer than `count`, every
question of the index is in the result. -/
theorem apiFinals_delivers_min {Q : Type} [DecidableEq Q] (db : Index Q) (rng : Rng)
    (count : Nat) (hc : 1 ≤ count) (hparsed : ∀ e ∈ db, e.2 ≠ Entry.failed)
    (hq : (db.flatMap (fun e => e.2.questionList)).Nodup) :
    ∃ body, apiFinalsHandler db rng (some count) = .ok body ∧
      body.requested = count ∧
      body.delivered = min count (db.flatMap (fun e => e.2.questionList)).length ∧
      body.items.length = min count (db.flatMap (fun e => e.2.questionList)).length ∧
      body.items.Nodup ∧
      (body.delivered < count →
        ∀ q ∈ db.flatMap (fun e => e.2.questionList), Item.question q ∈ body.items) := by
  have H := valuesQuestions_nodup_of_parsed db hparsed hq
  have hN : (valuesQuestions db).length = (db.flatMap (fun e => e.2.questionList)).length := by
    rw [valuesQuestions_of_parsed db hparsed, List.length_map]
  have hR := slices_nodup db rng (afterShuffle rng (getSubjectPool db "pharmacology")) count H
  have hsub : ∀ x ∈ subjectSlice db rng "pharmacology" ⟨1, 2⟩ count
      ++ subjectSlice db (afterShuffle rng (getSubjectPool db "pharmacology"))
          "pathology" ⟨1, 2⟩ count, x ∈ valuesQuestions db := by
    intro x hx
    rcases List.mem_append.mp hx with h | h
    · exact subjectSlice_subset db _ _ _ _ x h
    · exact subjectSlice_subset db _ _ _ _ x h
  have hle : (subjectSlice db rng "pharmacology" ⟨1, 2⟩ count
      ++ subjectSlice db (afterShuffle rng (getSubjectPool db "pharmacology"))
          "pathology" ⟨1, 2⟩ count).length ≤ count := by
    have h := strata_length_le db count FINALS_RATIO rng []
    rw [strata_finals] at h
    simp only [ FINALS_RATIO, Ratio.quota, List.map_cons, List.map_nil, List.sum_cons,
      List.sum_nil, List.length_nil] at h
    omega
  obtain ⟨h1, h2, h3⟩ := completed_length _ (valuesQuestions db)
    (shuffle (afterShuffle (afterShuffle rng (getSubjectPool db "pharmacology"))
      (getSubjectPool db "pathology")) (valuesQuestions db)) count hR H hsub
    (shuffle_perm_pool _ _) hle
  rw [hN] at h1
  have hbody := apiFinalsHandler_eq db rng count hc
  simp only [strata_finals, apiFinalsFiller] at hbody
  refine ⟨_, hbody, rfl, h1, h1, h2, ?_⟩
  intro hshort q hq'
  have hshort' : min count (db.flatMap (fun e => e.2.questionList)).length < count := by
    have h := hshort
    simp only at h
    rw [h1] at h
    exact h
  have hlen : (valuesQuestions db).length ≤ min count
      (db.flatMap (fun e => e.2.questionList)).length := by
    rw [hN]
    omega
  rw [← h1] at hlen
  have hperm := (h2.subperm (fun x hx => h3 x hx)).perm_of_length_le hlen
  apply hperm.mem_iff.mpr
  rw [valuesQuestions_of_parsed db hparsed]
  exact List.mem_map.mpr ⟨q, hq', rfl⟩

/-- An index of five questions asked for four and for nine finals questions. -/
theorem apiFinals_delivers_min_witness :
    (1 ≤ 9 ∧ (∀ e ∈ sampleDb, e.2 ≠ Entry.failed) ∧
      (sampleDb.flatMap (fun e => e.2.questionList)).Nodup) ∧
    (sampleDb.flatMap (fun e => e.2.questionList)).length = 5 ∧
    ∃ body, apiFinalsHandler sampleDb zeroRng (some 9) = .ok body ∧ body.requested = 9 ∧
      body.delivered = 5 ∧ body.items.length = 5 := by
  have hp : ∀ e ∈ sampleDb, e.2 ≠ Entry.failed := by decide
  have hq : (sampleDb.flatMap (fun e => e.2.questionList)).Nodup := by decide
  have hN : (sampleDb.flatMap (fun e => e.2.questionList)).length = 5 := by decide
  obtain ⟨body, hb, h1, h2, h3, _, _⟩ :=
    apiFinals_delivers_min sampleDb zeroRng 9 (by decide) hp hq
  rw [hN] at h2 h3
  exact ⟨⟨by decide, hp, hq⟩, hN, body, hb, h1, h2, h3⟩

/-- C23: the handlers of the two files on an index of three pharmacology and two
pathology questions.  Without subject, `/mcqs/random` of `server.js` draws from
the two lesson record objects and reports `total = 2`, that of `api.js` draws
from the five questions and reports `total = 5`; for `count = 5` the finals
handler of `server.js` fills the result with a lesson record object, that of
`api.js` with a question. -/
theorem deployments_differ :
    randomHandler sampleDb zeroRng none (some 10)
        = .ok { items := [Item.lesson "pathology-lesson1"
                            { questions := [100, 101], title := "pathology-lesson1" },
                          Item.lesson "pharmacology-lesson1"
                            { questions := [0, 1, 2], title := "pharmacology-lesson1" }],
                total := 2, requested := 10, delivered := 2 } ∧
      apiRandomHandler sampleDb zeroRng none (some 10)
        = .ok { items := [.question 1, .question 2, .question 100, .question 101, .question 0],
                total := 5, requested := 10, delivered := 5 } ∧
      finalsHandler sampleDb zeroRng (some 5)
        = .ok { items := [.question 1, .question 2, .question 101, .question 100,
                          Item.lesson "pathology-lesson1"
                            { questions := [100, 101], title := "pathology-lesson1" }],
                requested := 5, delivered := 5, ratio := FINALS_RATIO } ∧
      apiFinalsHandler sampleDb zeroRng (some 5)
        = .ok { items := [.question 1, .question 2, .question 101, .question 100, .question 0],
                requested := 5, delivered := 5, ratio := FINALS_RATIO } ∧
      randomHandler sampleDb zeroRng none (some 10)
        ≠ apiRandomHandler sampleDb zeroRng none (some 10) ∧
      finalsHandler sampleDb zeroRng (some 5) ≠ apiFinalsHandler sampleDb zeroRng (some 5) := by
  decide

end MedicineMCQ
